import Mathlib

/-!
Verification of the render-tree diff/builder engine and session protocol of the
submillisecond-live-view library, as a shallow embedding in Lean.

Conventions used throughout:
* Rust `Vec<T>` is modelled as `List T`; `String` as Lean `String`.
* `serde_json::Value` is modelled by `JValue` below; a JSON object
  (`serde_json::Map`) is modelled as an association list of key/value pairs in
  iteration order (real maps have unique keys; where that matters a
  well-formedness predicate is assumed explicitly).
* `std::collections::HashMap<usize, V>` is modelled as an association list
  `List (Nat × V)` whose list order is the (arbitrary) iteration order of the
  hash map.
* Fallible / panicking Rust code becomes `Option`-returning Lean code.
-/

set_option maxHeartbeats 2000000

namespace LiveViewVerify

/-! ## JSON values (`serde_json::Value`) -/

/-- Model of `serde_json::Value`.  Numbers are collapsed to `Int`: the diff and
strip algorithms of `src/rendered/diff.rs` and `src/rendered/strip.rs` only
ever compare numbers for equality. -/
inductive JValue where
  | null : JValue
  | bool (b : Bool) : JValue
  | num (n : Int) : JValue
  | str (s : String) : JValue
  | arr (elems : List JValue) : JValue
  | obj (fields : List (String × JValue)) : JValue

mutual

/-- Structural equality on `JValue` (Rust `PartialEq` on `serde_json::Value`). -/
def jeq : JValue → JValue → Bool
  | .null, .null => true
  | .bool a, .bool b => a == b
  | .num a, .num b => a == b
  | .str a, .str b => a == b
  | .arr xs, .arr ys => jeqList xs ys
  | .obj xs, .obj ys => jeqFields xs ys
  | _, _ => false

def jeqList : List JValue → List JValue → Bool
  | [], [] => true
  | x :: xs, y :: ys => jeq x y && jeqList xs ys
  | _, _ => false

def jeqFields : List (String × JValue) → List (String × JValue) → Bool
  | [], [] => true
  | (k1, v1) :: xs, (k2, v2) :: ys => k1 == k2 && jeq v1 v2 && jeqFields xs ys
  | _, _ => false

end

/-! ## `src/rendered/strip.rs` -/

/-- The `BitFlags<Strip>` mask of `strip.rs`: which kinds of values to strip. -/
structure StripMask where
  nulls : Bool
  empties : Bool

mutual

/-- Embeds `strip_mut_inner` of `src/rendered/strip.rs`.  The Rust function
mutates its argument and returns a keep-flag; here we return the pair
(keep-flag, mutated value). -/
def stripInner (mask : StripMask) : JValue → Bool × JValue
  | .null => (!mask.nulls, .null)
  | .obj fields =>
      let fields2 := stripFields mask fields
      (!(fields2.isEmpty && mask.empties), .obj fields2)
  | .arr elems =>
      let res := stripElems mask elems
      let elems2 := if res.2 = elems.length then [] else res.1
      (!(elems2.isEmpty && mask.empties), .arr elems2)
  | v => (true, v)

/-- The `o.retain(|_, v| strip_mut_inner(mask, v))` loop over object fields. -/
def stripFields (mask : StripMask) : List (String × JValue) → List (String × JValue)
  | [] => []
  | (k, v) :: rest =>
      let r := stripInner mask v
      if r.1 then (k, r.2) :: stripFields mask rest else stripFields mask rest

/-- The array loop of `strip_mut_inner`: elements failing the keep test are
replaced by `null` and counted; returns (new elements, null count). -/
def stripElems (mask : StripMask) : List JValue → List JValue × Nat
  | [] => ([], 0)
  | v :: vs =>
      let r := stripInner mask v
      let rest := stripElems mask vs
      if r.1 then (r.2 :: rest.1, rest.2) else (JValue.null :: rest.1, rest.2 + 1)

end

/-- Embeds `strip` of `src/rendered/strip.rs`. -/
def strip (mask : StripMask) (value : JValue) : Option JValue :=
  match stripInner mask value with
  | (false, _) => none
  | (true, v) => some v

/-! ## `src/rendered/diff.rs` -/

def JValue.isArr : JValue → Bool
  | .arr _ => true
  | _ => false

def JValue.isObj : JValue → Bool
  | .obj _ => true
  | _ => false

/-- `as_array().unwrap()`, defaulting to `[]`; only used under an `isArr` guard. -/
def JValue.elems : JValue → List JValue
  | .arr xs => xs
  | _ => []

/-- `as_object().unwrap()`, defaulting to `[]`; only used under an `isObj` guard. -/
def JValue.fields : JValue → List (String × JValue)
  | .obj xs => xs
  | _ => []

/-- Map lookup (`new_obj.get(k)` / `old.get(k)`) on the association-list model. -/
def jlookup (fields : List (String × JValue)) (k : String) : Option JValue :=
  (fields.find? (fun p => p.1 == k)).map (fun p => p.2)

/-- Embeds `diff_array` of `src/rendered/diff.rs`: equal length and pointwise
equal means no diff, anything else returns the whole new array. -/
def diff_array (old new : List JValue) : Option JValue :=
  if old.length ≠ new.length then some (.arr new)
  else if (old.zip new).all (fun p => jeq p.1 p.2) then none
  else some (.arr new)

/-- The default arm of `diff`'s match: unequal scalars (or mismatched kinds)
yield the new value, with an empty new string encoded as `{"d": []}`. -/
def jdiffOther (old new : JValue) : Option JValue :=
  if jeq old new then none
  else
    match new with
    | .str s => if s.isEmpty then some (.obj [("d", .arr [])]) else some new
    | _ => some new

mutual

/-- Embeds `diff` of `src/rendered/diff.rs`. -/
def jdiff : JValue → JValue → Option JValue
  | .null, new => strip ⟨true, true⟩ new
  | .arr o, new => if new.isArr then diff_array o new.elems else some (.arr [])
  | .obj o, new => if new.isObj then diff_map o new else jdiffOther (.obj o) new
  | old, new => jdiffOther old new

/-- Embeds `diff_map` of `src/rendered/diff.rs`.  The Rust result map is a
`BTreeMap` (iterated in key order); here the result fields appear in the order
they are inserted (old-entries pass, then new-only keys), which represents the
same map. -/
def diff_map (old : List (String × JValue)) (new : JValue) : Option JValue :=
  if old.isEmpty then some new
  else
    let newFields := new.fields
    if newFields.isEmpty then some (.obj (old.map fun p => (p.1, JValue.null)))
    else
      let result := diffEntries old newFields ++
        newFields.filter (fun p => (jlookup old p.1).isNone)
      if result.isEmpty then none else some (.obj result)

/-- The first loop of `diff_map`: each old entry contributes its recursive diff
against the same key in the new map, or `null` if the key disappeared. -/
def diffEntries : List (String × JValue) → List (String × JValue) →
    List (String × JValue)
  | [], _ => []
  | (k, v) :: rest, newFields =>
      (match jlookup newFields k with
       | some n =>
         match jdiff v n with
         | some changed => [(k, changed)]
         | none => []
       | none => [(k, JValue.null)]) ++ diffEntries rest newFields

end

/-! ## Reflexivity facts about the JSON diff (claim C1 groundwork) -/

mutual

/-- Rust `PartialEq` is reflexive on values. -/
def jeq_refl : ∀ v : JValue, jeq v v = true
  | .null => rfl
  | .bool b => by simp [jeq]
  | .num n => by simp [jeq]
  | .str s => by simp [jeq]
  | .arr xs => by simp [jeq, jeqList_refl xs]
  | .obj xs => by simp [jeq, jeqFields_refl xs]

def jeqList_refl : ∀ xs : List JValue, jeqList xs xs = true
  | [] => rfl
  | x :: xs => by simp [jeqList, jeq_refl x, jeqList_refl xs]

def jeqFields_refl : ∀ xs : List (String × JValue), jeqFields xs xs = true
  | [] => rfl
  | (k, v) :: xs => by simp [jeqFields, jeq_refl v, jeqFields_refl xs]

end

theorem diff_array_self (l : List JValue) : diff_array l l = none := by
  have hall : ∀ xs : List JValue, (xs.zip xs).all (fun p => jeq p.1 p.2) = true := by
    intro xs
    induction xs with
    | nil => rfl
    | cons x xs ih => simpa [List.zip, List.all, jeq_refl x] using ih
  simp [diff_array, hall l]

/-- Well-formedness of a value as the image of a real `serde_json::Value`:
every object's keys are distinct (a `serde_json::Map` cannot hold duplicate
keys; the association-list model can). -/
def keyFresh (k : String) : List (String × JValue) → Bool
  | [] => true
  | (k2, _) :: rest => !(k == k2) && keyFresh k rest

mutual

def jwf : JValue → Bool
  | .obj fields => jwfFields fields
  | .arr elems => jwfElems elems
  | _ => true

def jwfFields : List (String × JValue) → Bool
  | [] => true
  | (k, v) :: rest => keyFresh k rest && jwf v && jwfFields rest

def jwfElems : List JValue → Bool
  | [] => true
  | v :: rest => jwf v && jwfElems rest

end

mutual

/-- No empty object occurs in `v` (traversing object fields; array elements
are compared wholesale by `diff_array` and need not be traversed). -/
def goodEq : JValue → Bool
  | .obj fields => !fields.isEmpty && goodFields fields
  | _ => true

def goodFields : List (String × JValue) → Bool
  | [] => true
  | (_, v) :: rest => goodEq v && goodFields rest

end

theorem jlookup_cons_self (k : String) (v : JValue) (rest : List (String × JValue)) :
    jlookup ((k, v) :: rest) k = some v := by
  simp [jlookup, List.find?]

theorem jlookup_cons_ne (k k2 : String) (v : JValue) (rest : List (String × JValue))
    (h : (k == k2) = false) : jlookup ((k, v) :: rest) k2 = jlookup rest k2 := by
  simp [jlookup, List.find?, h]

theorem keyFresh_ne (k2 : String) (rest : List (String × JValue))
    (hfresh : keyFresh k2 rest = true) :
    ∀ k v, (k, v) ∈ rest → (k2 == k) = false := by
  induction rest with
  | nil => intro k v h; simp at h
  | cons q qs ihq =>
      obtain ⟨kq, vq⟩ := q
      intro k v h
      have hsplit : (k2 == kq) = false ∧ keyFresh k2 qs = true := by
        simpa [keyFresh] using hfresh
      rcases List.mem_cons.mp h with hh | hh
      · obtain ⟨rfl, rfl⟩ := Prod.mk.injEq .. ▸ hh
        exact hsplit.1
      · exact ihq hsplit.2 k v hh

/-- With distinct keys, lookup finds exactly the member entry. -/
theorem jlookup_of_mem (fields : List (String × JValue))
    (hwf : jwfFields fields = true) :
    ∀ k v, (k, v) ∈ fields → jlookup fields k = some v := by
  induction fields with
  | nil => intro k v h; simp at h
  | cons p rest ih =>
      obtain ⟨k2, v2⟩ := p
      intro k v hmem
      have hwf' : keyFresh k2 rest = true ∧ jwf v2 = true ∧ jwfFields rest = true := by
        simp [jwfFields] at hwf
        exact ⟨hwf.1.1, hwf.1.2, hwf.2⟩
      rcases List.mem_cons.mp hmem with h | h
      · obtain ⟨rfl, rfl⟩ := Prod.mk.injEq .. ▸ h
        exact jlookup_cons_self ..
      · have hne : (k2 == k) = false := keyFresh_ne k2 rest hwf'.1 k v h
        rw [jlookup_cons_ne _ _ _ _ hne]
        exact ih hwf'.2.2 k v h

mutual

/-- On well-formed values with no empty object, the JSON diff of a value
against itself is `none`. -/
def jdiff_self : ∀ v : JValue, jwf v = true → goodEq v = true → jdiff v v = none
  | .null, _, _ => by simp [jdiff, strip, stripInner]
  | .bool b, _, _ => by simp [jdiff, jdiffOther, jeq_refl]
  | .num n, _, _ => by simp [jdiff, jdiffOther, jeq_refl]
  | .str s, _, _ => by simp [jdiff, jdiffOther, jeq_refl]
  | .arr xs, _, _ => by simp [jdiff, JValue.isArr, JValue.elems, diff_array_self]
  | .obj fields, hwf, hg => by
      have hwff : jwfFields fields = true := by simpa [jwf] using hwf
      have hg2 : ¬ fields = [] ∧ goodFields fields = true := by simpa [goodEq] using hg
      have hne : fields.isEmpty = false := by
        cases fields with
        | nil => exact absurd rfl hg2.1
        | cons p rest => rfl
      have hgf : goodFields fields = true := hg2.2
      have hself : ∀ k v, (k, v) ∈ fields → jdiff v v = none :=
        jdiffFields_self fields hwff hgf
      have hlook : ∀ k v, (k, v) ∈ fields → jlookup fields k = some v :=
        jlookup_of_mem fields hwff
      have hentries : ∀ sub : List (String × JValue),
          (∀ k v, (k, v) ∈ sub → (k, v) ∈ fields) → diffEntries sub fields = [] := by
        intro sub
        induction sub with
        | nil => intro _; simp [diffEntries]
        | cons p rest ih =>
            obtain ⟨k, v⟩ := p
            intro hsub
            have hm : (k, v) ∈ fields := hsub k v (by simp)
            have htail := ih (fun k2 v2 h2 => hsub k2 v2 (List.mem_cons_of_mem _ h2))
            simp [diffEntries, hlook k v hm, hself k v hm, htail]
      have hfilter : fields.filter (fun p => (jlookup fields p.1).isNone) = [] := by
        rw [List.filter_eq_nil_iff]
        intro p hp
        have := hlook p.1 p.2 hp
        simp [this]
      simp [jdiff, JValue.isObj, diff_map, hne, JValue.fields,
        hentries fields (fun _ _ h => h), hfilter]

def jdiffFields_self : ∀ fs : List (String × JValue), jwfFields fs = true →
    goodFields fs = true → ∀ k v, (k, v) ∈ fs → jdiff v v = none
  | [], _, _ => by intro k v h; simp at h
  | (k0, v0) :: rest, hwf, hg => by
      intro k v hmem
      have hwf' : jwf v0 = true ∧ jwfFields rest = true := by
        simp [jwfFields] at hwf
        exact ⟨hwf.1.2, hwf.2⟩
      have hg' : goodEq v0 = true ∧ goodFields rest = true := by
        simpa [goodFields] using hg
      rcases List.mem_cons.mp hmem with h | h
      · obtain ⟨rfl, rfl⟩ := Prod.mk.injEq .. ▸ h
        exact jdiff_self v hwf'.1 hg'.1
      · exact jdiffFields_self rest hwf'.2 hg'.2 k v h

end

/-! ## `src/rendered.rs`: `Rendered`, `RenderedDiff` and `DiffRender` -/

mutual

/-- `Rendered` of `src/rendered.rs`: statics plus dynamic slots. -/
inductive Rendered where
  | mk (statics : List String) (dynamics : List RDynamic)

/-- `Dynamic<Rendered>` of `src/rendered.rs`. -/
inductive RDynamic where
  | str (s : String)
  | nested (r : Rendered)

end

def Rendered.statics : Rendered → List String
  | .mk s _ => s

def Rendered.dynamics : Rendered → List RDynamic
  | .mk _ d => d

mutual

/-- `RenderedDiff` of `src/rendered.rs`.  Its `dynamics: HashMap<usize, _>` is
modelled as an association list in hash-map iteration order; `DiffRender::diff`
sorts both sides by key before zipping, so any iteration order gives the same
diff. -/
inductive RenderedDiff where
  | mk (statics : Option (List String)) (dynamics : List (Nat × DDynamic))

/-- `Dynamic<RenderedDiff>` of `src/rendered.rs`. -/
inductive DDynamic where
  | str (s : String)
  | nested (d : RenderedDiff)

end

def RenderedDiff.statics : RenderedDiff → Option (List String)
  | .mk s _ => s

def RenderedDiff.dynamics : RenderedDiff → List (Nat × DDynamic)
  | .mk _ d => d

/-- The `.enumerate()` step of `From<Rendered> for RenderedDiff`. -/
def enumDyns : Nat → List DDynamic → List (Nat × DDynamic)
  | _, [] => []
  | i, d :: ds => (i, d) :: enumDyns (i + 1) ds

mutual

/-- `From<Rendered> for RenderedDiff`: statics become `Some`, dynamics are
enumerated into the map. -/
def toDiff : Rendered → RenderedDiff
  | .mk s ds => .mk (some s) (enumDyns 0 (toDiffDyns ds))

/-- `From<Dynamic<Rendered>> for Dynamic<RenderedDiff>` mapped over a list. -/
def toDiffDyns : List RDynamic → List DDynamic
  | [] => []
  | .str s :: rest => .str s :: toDiffDyns rest
  | .nested r :: rest => .nested (toDiff r) :: toDiffDyns rest

end

/-- One insertion step of the stable key sort (`sorted_by(Ord::cmp)` on keys). -/
def insertPair (p : Nat × DDynamic) : List (Nat × DDynamic) → List (Nat × DDynamic)
  | [] => [p]
  | q :: qs => if p.1 ≤ q.1 then p :: q :: qs else q :: insertPair p qs

/-- Stable sort by key, modelling `sorted_by(|(a, _), (b, _)| Ord::cmp(a, b))`. -/
def sortPairs : List (Nat × DDynamic) → List (Nat × DDynamic)
  | [] => []
  | p :: ps => insertPair p (sortPairs ps)

theorem sizeOf_insertPair (p : Nat × DDynamic) (l : List (Nat × DDynamic)) :
    sizeOf (insertPair p l) = sizeOf (p :: l) := by
  induction l with
  | nil => simp [insertPair]
  | cons q qs ih =>
      by_cases h : p.1 ≤ q.1
      · simp [insertPair, h]
      · simp [insertPair, h, ih]
        omega

theorem sizeOf_sortPairs (l : List (Nat × DDynamic)) :
    sizeOf (sortPairs l) = sizeOf l := by
  induction l with
  | nil => rfl
  | cons p ps ih => simp [sortPairs, sizeOf_insertPair, ih]

mutual

/-- `DiffRender::diff` for `RenderedDiff` (src/rendered.rs lines 81-137):
unequal statics return the new side wholesale; otherwise both dynamics maps
are sorted by key and zipped longest. -/
def rdiff : RenderedDiff → RenderedDiff → RenderedDiff
  | .mk sa da, .mk sb db =>
    if sa ≠ sb then .mk sb db
    else .mk none (zipDyns (sortPairs da) (sortPairs db))
termination_by a b => sizeOf a + sizeOf b
decreasing_by
  simp_wf
  simp [sizeOf_sortPairs]
  omega

/-- The `zip_longest(...).filter_map(...)` loop of `DiffRender::diff`.  The
first list is `self` (old), the second `other` (new); `Left` leftovers are
dropped, `Right` leftovers kept wholesale. -/
def zipDyns : List (Nat × DDynamic) → List (Nat × DDynamic) → List (Nat × DDynamic)
  | [], rs => rs
  | _ :: _, [] => []
  | (i, a) :: olds, (_, b) :: news =>
      (match a, b with
       | .str x, .str y => if x ≠ y then [(i, DDynamic.str y)] else []
       | .nested x, .nested y =>
           let d := rdiff x y
           if d.statics.isNone && d.dynamics.isEmpty then [] else [(i, DDynamic.nested d)]
       | .str _, .nested n => [(i, DDynamic.nested n)]
       | .nested _, .str y => [(i, DDynamic.str y)]) ++ zipDyns olds news
termination_by l1 l2 => sizeOf l1 + sizeOf l2
decreasing_by
  all_goals simp_wf
  all_goals omega

end

mutual

/-- The `fmt::Display` impl for `Rendered` (src/rendered.rs lines 139-153):
zip statics with dynamics, then append the last static only when the dynamics
are non-empty. -/
def renderedText : Rendered → String
  | .mk s ds => pairsText s ds ++ (if ds.isEmpty then "" else (s.getLast?.getD ""))

/-- The `for (s, d) in statics.zip(dynamics)` loop of the `Display` impl. -/
def pairsText : List String → List RDynamic → String
  | s :: ss, d :: ds => s ++ dynText d ++ pairsText ss ds
  | _, _ => ""

/-- The `fmt::Display` impl for `Dynamic<Rendered>`. -/
def dynText : RDynamic → String
  | .str s => s
  | .nested r => renderedText r

end

mutual

/-- A `RenderedDiff` diffed against itself is the empty diff. -/
def rdiff_self : ∀ d : RenderedDiff, rdiff d d = .mk none []
  | .mk s ds => by
      have h := zipDyns_self (sortPairs ds)
      simp [rdiff, h]
termination_by d => sizeOf d
decreasing_by
  simp_wf
  simp [sizeOf_sortPairs]
  try omega

def zipDyns_self : ∀ l : List (Nat × DDynamic), zipDyns l l = []
  | [] => by simp [zipDyns]
  | (i, .str s) :: rest => by simp [zipDyns, zipDyns_self rest]
  | (i, .nested d) :: rest => by
      simp [zipDyns, rdiff_self d, zipDyns_self rest, RenderedDiff.statics,
        RenderedDiff.dynamics]
termination_by l => sizeOf l
decreasing_by
  all_goals simp_wf
  all_goals omega

end

theorem enumDyns_key_ge (j : Nat) (ds : List DDynamic) :
    ∀ q ∈ enumDyns j ds, j ≤ q.1 := by
  induction ds generalizing j with
  | nil => intro q h; simp [enumDyns] at h
  | cons d ds ih =>
      intro q h
      rcases (by simpa [enumDyns] using h : q = (j, d) ∨ q ∈ enumDyns (j + 1) ds) with h | h
      · subst h; exact Nat.le_refl j
      · have := ih (j + 1) q h
        omega

/-- Sorting by key is the identity on already-enumerated dynamics: the keys
`j, j+1, ...` are strictly increasing. -/
theorem sortPairs_enumDyns (j : Nat) (ds : List DDynamic) :
    sortPairs (enumDyns j ds) = enumDyns j ds := by
  induction ds generalizing j with
  | nil => rfl
  | cons d ds ih =>
      show sortPairs ((j, d) :: enumDyns (j + 1) ds) = _
      rw [sortPairs, ih (j + 1)]
      cases ds with
      | nil => rfl
      | cons d2 ds2 =>
          show insertPair (j, d) ((j + 1, d2) :: enumDyns (j + 2) ds2) = _
          rw [insertPair]
          simp [enumDyns]

/-- Positional slot comparison, the specification of §4.2 rule 2 of the spec:
text vs text replaces only on inequality, nested vs nested recurses and emits
only a non-empty diff, a kind change emits the new value wholesale. -/
def slotPatch : DDynamic → DDynamic → Option DDynamic
  | .str x, .str y => if x ≠ y then some (.str y) else none
  | .nested x, .nested y =>
      let d := rdiff x y
      if d.statics.isNone && d.dynamics.isEmpty then none else some (.nested d)
  | .str _, .nested n => some (.nested n)
  | .nested _, .str y => some (.str y)

/-- Specification of a purely positional diff: slot `k` of the old dynamics is
compared only with slot `k` of the new dynamics; surplus new slots are emitted
wholesale, surplus old slots are dropped. -/
def positionalDiff : Nat → List DDynamic → List DDynamic → List (Nat × DDynamic)
  | i, [], bs => enumDyns i bs
  | _, _ :: _, [] => []
  | i, a :: olds, b :: news =>
      (match slotPatch a b with
       | some d => [(i, d)]
       | none => []) ++ positionalDiff (i + 1) olds news

/-- The sorted zip of `DiffRender::diff` coincides with the positional
specification on enumerated dynamics. -/
theorem zipDyns_enumDyns (xs : List DDynamic) :
    ∀ (ys : List DDynamic) (i : Nat),
      zipDyns (enumDyns i xs) (enumDyns i ys) = positionalDiff i xs ys := by
  induction xs with
  | nil => intro ys i; cases ys <;> simp [enumDyns, zipDyns, positionalDiff]
  | cons x xs ih =>
      intro ys i
      cases ys with
      | nil => simp [enumDyns, zipDyns, positionalDiff]
      | cons y ys =>
          show zipDyns ((i, x) :: enumDyns (i + 1) xs) ((i, y) :: enumDyns (i + 1) ys) = _
          rw [positionalDiff, ← ih ys (i + 1)]
          cases x <;> cases y <;> simp [zipDyns, slotPatch] <;> split <;> simp_all

theorem positionalDiff_mem_ge (xs : List DDynamic) :
    ∀ (ys : List DDynamic) (i : Nat) (p : Nat × DDynamic),
      p ∈ positionalDiff i xs ys → i ≤ p.1 := by
  induction xs with
  | nil => intro ys i p h; exact enumDyns_key_ge i ys p (by simpa [positionalDiff] using h)
  | cons x xs ih =>
      intro ys i p h
      cases ys with
      | nil => simp [positionalDiff] at h
      | cons y ys =>
          rw [positionalDiff] at h
          rcases List.mem_append.mp h with h | h
          · cases hs : slotPatch x y with
            | none => rw [hs] at h; simp at h
            | some d =>
                rw [hs] at h
                have : p = (i, d) := by simpa using h
                subst this
                exact Nat.le_refl i
          · have := ih ys (i + 1) p h
            omega

/-- Membership in the positional diff is determined, slot by slot, by
`slotPatch` applied at the same index on both sides. -/
theorem positionalDiff_mem_iff (xs : List DDynamic) :
    ∀ (ys : List DDynamic), xs.length = ys.length →
      ∀ (i k : Nat) (d : DDynamic),
        ((k, d) ∈ positionalDiff i xs ys ↔
          ∃ x y, xs[k - i]? = some x ∧ ys[k - i]? = some y ∧ i ≤ k ∧
            slotPatch x y = some d) := by
  induction xs with
  | nil =>
      intro ys hlen i k d
      have : ys = [] := List.length_eq_zero.mp hlen.symm
      subst this
      simp [positionalDiff, enumDyns]
  | cons x xs ih =>
      intro ys hlen i k d
      cases ys with
      | nil => simp at hlen
      | cons y ys =>
          have hlen' : xs.length = ys.length := by simpa using hlen
          rw [positionalDiff]
          constructor
          · intro h
            rcases List.mem_append.mp h with h | h
            · cases hs : slotPatch x y with
              | none => rw [hs] at h; simp at h
              | some d0 =>
                  rw [hs] at h
                  simp at h
                  obtain ⟨rfl, rfl⟩ := h
                  exact ⟨x, y, by simp, by simp, Nat.le_refl _, hs⟩
            · have hge := positionalDiff_mem_ge xs ys (i + 1) (k, d) h
              have hk : i + 1 ≤ k := hge
              obtain ⟨x2, y2, hx2, hy2, hik, hslot⟩ := (ih ys hlen' (i + 1) k d).mp h
              refine ⟨x2, y2, ?_, ?_, by omega, hslot⟩
              · have : k - i = (k - (i + 1)) + 1 := by omega
                rw [this]
                simpa using hx2
              · have : k - i = (k - (i + 1)) + 1 := by omega
                rw [this]
                simpa using hy2
          · rintro ⟨x2, y2, hx2, hy2, hik, hslot⟩
            rcases Nat.eq_or_lt_of_le hik with heq | hlt
            · subst heq
              simp at hx2 hy2
              subst hx2; subst hy2
              exact List.mem_append.mpr (Or.inl (by simp [hslot]))
            · refine List.mem_append.mpr (Or.inr ?_)
              have hki : k - i = (k - (i + 1)) + 1 := by omega
              rw [hki] at hx2 hy2
              simp at hx2 hy2
              exact (ih ys hlen' (i + 1) k d).mpr ⟨x2, y2, hx2, hy2, by omega, hslot⟩

/-! ## Flattened-text specification (claim C10) -/

/-- Specification of the spec's statics/dynamics interleaving
`statics[0], dynamic 0, ..., dynamic n-1, statics[n]` (defined from the spec's
words, to be compared with the `Display` implementation `renderedText`). -/
def specInterleave : List String → List RDynamic → String
  | [s], [] => s
  | s :: ss, d :: ds => s ++ dynText d ++ specInterleave ss ds
  | _, _ => ""

theorem pairsText_append_last (ds : List RDynamic) :
    ∀ s : List String, s.length = ds.length + 1 →
      pairsText s ds ++ (s.getLast?.getD "") = specInterleave s ds := by
  induction ds with
  | nil =>
      intro s hlen
      match s, hlen with
      | [x], _ => simp [pairsText, specInterleave]
  | cons d ds ih =>
      intro s hlen
      match s, hlen with
      | x :: ss, hlen =>
          have hss : ss.length = ds.length + 1 := by simpa using hlen
          have hne : ss ≠ [] := by
            intro h; rw [h] at hss; simp at hss
          rw [pairsText, specInterleave]
          have hlast : (x :: ss).getLast? = ss.getLast? := by
            cases ss with
            | nil => exact absurd rfl hne
            | cons a ss2 => exact List.getLast?_cons_cons ..
          rw [hlast, ← ih ss hss]
          simp [String.append_assoc]

/-! ## Values unaffected by `strip` (claim C3 groundwork) -/

mutual

/-- No `null` and no empty object/array anywhere: exactly the values on which
`strip(Nulls | Empties, v)` is the identity. -/
def cleanVal : JValue → Bool
  | .null => false
  | .obj fields => !fields.isEmpty && cleanFields fields
  | .arr elems => !elems.isEmpty && cleanElems elems
  | _ => true

def cleanFields : List (String × JValue) → Bool
  | [] => true
  | (_, v) :: rest => cleanVal v && cleanFields rest

def cleanElems : List JValue → Bool
  | [] => true
  | v :: rest => cleanVal v && cleanElems rest

end

mutual

/-- On clean values the strip pass keeps everything unchanged. -/
def stripInner_clean : ∀ v : JValue, cleanVal v = true →
    stripInner ⟨true, true⟩ v = (true, v)
  | .null, h => by simp [cleanVal] at h
  | .bool b, _ => by simp [stripInner]
  | .num n, _ => by simp [stripInner]
  | .str s, _ => by simp [stripInner]
  | .obj fields, h => by
      have h2 : ¬ fields = [] ∧ cleanFields fields = true := by simpa [cleanVal] using h
      have hf := stripFields_clean fields h2.2
      have hne : fields.isEmpty = false := by
        cases fields with
        | nil => exact absurd rfl h2.1
        | cons p rest => rfl
      simp [stripInner, hf, hne]
  | .arr elems, h => by
      have h2 : ¬ elems = [] ∧ cleanElems elems = true := by simpa [cleanVal] using h
      have he := stripElems_clean elems h2.2
      have hlen : ¬ elems = [] → ¬ (0 = elems.length) := by
        intro hne hzero
        exact hne (List.length_eq_zero.mp hzero.symm)
      have hne : elems.isEmpty = false := by
        cases elems with
        | nil => exact absurd rfl h2.1
        | cons p rest => rfl
      simp [stripInner, he, hlen h2.1, hne]

def stripFields_clean : ∀ fs : List (String × JValue), cleanFields fs = true →
    stripFields ⟨true, true⟩ fs = fs
  | [], _ => rfl
  | (k, v) :: rest, h => by
      have h2 : cleanVal v = true ∧ cleanFields rest = true := by
        simpa [cleanFields] using h
      simp [stripFields, stripInner_clean v h2.1, stripFields_clean rest h2.2]

def stripElems_clean : ∀ es : List JValue, cleanElems es = true →
    stripElems ⟨true, true⟩ es = (es, 0)
  | [], _ => rfl
  | v :: rest, h => by
      have h2 : cleanVal v = true ∧ cleanElems rest = true := by
        simpa [cleanElems] using h
      simp [stripElems, stripInner_clean v h2.1, stripElems_clean rest h2.2]

end

theorem strip_clean (v : JValue) (h : cleanVal v = true) :
    strip ⟨true, true⟩ v = some v := by
  simp [strip, stripInner_clean v h]

/-! ## `src/tera/json.rs`: `RenderedJson` and its diff -/

mutual

/-- `RenderedJson` of `src/tera/json.rs`; its `dynamics: HashMap<usize, _>` is
modelled as an association list in hash-map iteration order.  Unlike
`DiffRender::diff`, `RenderedJson::diff` does not sort before zipping, so the
iteration order is observable. -/
inductive RenderedJson where
  | mk (statics : Option (List String)) (dynamics : List (Nat × DynamicRenderJson))

/-- `DynamicRenderJson` of `src/tera/json.rs`. -/
inductive DynamicRenderJson where
  | str (s : String)
  | nested (d : RenderedJson)

end

def RenderedJson.statics : RenderedJson → Option (List String)
  | .mk s _ => s

def RenderedJson.dynamics : RenderedJson → List (Nat × DynamicRenderJson)
  | .mk _ d => d

mutual

/-- `RenderedJson::diff` (src/tera/json.rs lines 17-62): like
`DiffRender::diff` but zipping `self.dynamics.iter()` with
`other.dynamics.iter()` directly, in hash-map iteration order, without
sorting. -/
def jsonDiff : RenderedJson → RenderedJson → RenderedJson
  | .mk sa da, .mk sb db =>
    if sa ≠ sb then .mk sb db
    else .mk none (jsonZip da db)

/-- The `zip_longest(...).filter_map(...)` loop of `RenderedJson::diff`; the
emitted key is the old side's key `i`, the compared value the new side's entry
at the same *list position*. -/
def jsonZip : List (Nat × DynamicRenderJson) → List (Nat × DynamicRenderJson) →
    List (Nat × DynamicRenderJson)
  | [], rs => rs
  | _ :: _, [] => []
  | (i, a) :: olds, (_, b) :: news =>
      (match a, b with
       | .str x, .str y => if x ≠ y then [(i, DynamicRenderJson.str y)] else []
       | .nested x, .nested y =>
           let d := jsonDiff x y
           if d.statics.isNone && d.dynamics.isEmpty then []
           else [(i, DynamicRenderJson.nested d)]
       | .str _, .nested n => [(i, DynamicRenderJson.nested n)]
       | .nested _, .str y => [(i, DynamicRenderJson.str y)]) ++ jsonZip olds news

end

/-- Map lookup on the modelled `HashMap<usize, DynamicRenderJson>`. -/
def dynLookup (l : List (Nat × DynamicRenderJson)) (k : Nat) :
    Option DynamicRenderJson :=
  (l.find? (fun p => p.1 == k)).map (fun p => p.2)

/-- For render trees with equal statics, `DiffRender::diff` computes exactly
the positional slot-by-slot diff. -/
theorem rdiff_trees_positional (T1 T2 : Rendered) (hs : T1.statics = T2.statics) :
    rdiff (toDiff T1) (toDiff T2) =
      .mk none (positionalDiff 0 (toDiffDyns T1.dynamics) (toDiffDyns T2.dynamics)) := by
  cases T1 with
  | mk s1 d1 =>
    cases T2 with
    | mk s2 d2 =>
        have hs' : s1 = s2 := by simpa [Rendered.statics] using hs
        subst hs'
        simp only [toDiff, Rendered.dynamics]
        rw [rdiff]
        simp [sortPairs_enumDyns, zipDyns_enumDyns]

/-- Membership characterization of the tree diff for equal statics and equal
slot counts: an entry at key `k` exists exactly when `slotPatch` of the two
slots at index `k` yields it. -/
theorem rdiff_trees_mem_iff (T1 T2 : Rendered) (hs : T1.statics = T2.statics)
    (hlen : (toDiffDyns T1.dynamics).length = (toDiffDyns T2.dynamics).length)
    (k : Nat) (d : DDynamic) :
    ((k, d) ∈ (rdiff (toDiff T1) (toDiff T2)).dynamics ↔
      ∃ x y, (toDiffDyns T1.dynamics)[k]? = some x ∧
        (toDiffDyns T2.dynamics)[k]? = some y ∧ slotPatch x y = some d) := by
  rw [rdiff_trees_positional T1 T2 hs]
  have := positionalDiff_mem_iff (toDiffDyns T1.dynamics) (toDiffDyns T2.dynamics)
    hlen 0 k d
  simpa [RenderedDiff.dynamics] using this

/-! ## Claim theorems -/

/-- C1 counterexample: the JSON-value diff of the empty object against itself
is `Some({})`, not `None` (first branch of `diff_map`), refuting the claim
that the value-level diff returns `None` for *every* pair of equal values
including equal objects. -/
theorem jdiff_empty_obj_self_not_none :
    jdiff (.obj []) (.obj []) = some (.obj []) ∧
    jdiff (.obj []) (.obj []) ≠ none := by
  constructor
  · simp [jdiff, JValue.isObj, diff_map, JValue.fields]
  · simp [jdiff, JValue.isObj, diff_map, JValue.fields]

/-- C1 (amended): the render-tree diff of a tree against itself is the empty
diff, and the JSON-value diff of a well-formed value against itself is `None`
provided no empty object occurs along object fields (an old empty object makes
`diff_map` return the new value instead). -/
theorem diff_self_empty_tree_and_json :
    (∀ T : Rendered, rdiff (toDiff T) (toDiff T) = .mk none []) ∧
    (∀ v : JValue, jwf v = true → goodEq v = true → jdiff v v = none) :=
  ⟨fun T => rdiff_self (toDiff T), fun v h1 h2 => jdiff_self v h1 h2⟩

/-- Witness for the hypotheses of `diff_self_empty_tree_and_json`. -/
theorem diff_self_empty_tree_and_json_witness :
    jwf (.obj [("k", .str "v"), ("n", .num 3)]) = true ∧
    goodEq (.obj [("k", .str "v"), ("n", .num 3)]) = true ∧
    jdiff (.obj [("k", .str "v"), ("n", .num 3)])
      (.obj [("k", .str "v"), ("n", .num 3)]) = none :=
  ⟨rfl, rfl, diff_self_empty_tree_and_json.2 _ rfl rfl⟩

/-- C2 counterexample: `RenderedJson::diff` pairs dynamics by hash-map
iteration order, not by key.  The two maps below are equal as maps (slot `0`
holds `"a"` and slot `1` holds `"b"` on both sides) but iterate in different
orders, and the diff emits replacements: the entry at key `0` carries the new
side's slot `1` value.  A diff comparing index `i` only with index `i` would
emit nothing here. -/
theorem jsonDiff_pairs_by_iteration_order :
    (dynLookup [(0, .str "a"), (1, .str "b")] 0 =
       dynLookup [(1, .str "b"), (0, .str "a")] 0) ∧
    (dynLookup [(0, .str "a"), (1, .str "b")] 1 =
       dynLookup [(1, .str "b"), (0, .str "a")] 1) ∧
    (jsonDiff (.mk (some ["", ""]) [(0, .str "a"), (1, .str "b")])
        (.mk (some ["", ""]) [(1, .str "b"), (0, .str "a")])).dynamics =
      [(0, .str "b"), (1, .str "a")] := by
  refine ⟨by simp [dynLookup], by simp [dynLookup], ?_⟩
  simp [jsonDiff, jsonZip, RenderedJson.dynamics]

/-- C2 (amended): `DiffRender::diff` (which sorts both dynamics maps by key
before zipping) is purely positional: on trees with equal statics it equals
the positional slot-by-slot diff, and with equal slot counts an entry at key
`k` exists exactly when `slotPatch` of the two slots at index `k` produces it.
`RenderedJson::diff` pairs entries by iteration order instead and is positional
only when both maps iterate their keys in the same order. -/
theorem diff_positional_for_sorted_impl (T1 T2 : Rendered)
    (hs : T1.statics = T2.statics) :
    rdiff (toDiff T1) (toDiff T2) =
      .mk none (positionalDiff 0 (toDiffDyns T1.dynamics) (toDiffDyns T2.dynamics)) ∧
    ((toDiffDyns T1.dynamics).length = (toDiffDyns T2.dynamics).length →
      ∀ (k : Nat) (d : DDynamic),
        ((k, d) ∈ (rdiff (toDiff T1) (toDiff T2)).dynamics ↔
          ∃ x y, (toDiffDyns T1.dynamics)[k]? = some x ∧
            (toDiffDyns T2.dynamics)[k]? = some y ∧ slotPatch x y = some d)) := by
  exact ⟨rdiff_trees_positional T1 T2 hs,
    fun hlen k d => rdiff_trees_mem_iff T1 T2 hs hlen k d⟩

/-- Witness for the hypotheses of `diff_positional_for_sorted_impl`. -/
theorem diff_positional_for_sorted_impl_witness :
    (Rendered.mk ["u", "v"] [.str "a"]).statics =
      (Rendered.mk ["u", "v"] [.str "b"]).statics ∧
    rdiff (toDiff (.mk ["u", "v"] [.str "a"])) (toDiff (.mk ["u", "v"] [.str "b"])) =
      .mk none (positionalDiff 0 (toDiffDyns [.str "a"]) (toDiffDyns [.str "b"])) := by
  exact ⟨rfl, (diff_positional_for_sorted_impl
    (.mk ["u", "v"] [.str "a"]) (.mk ["u", "v"] [.str "b"]) rfl).1⟩

/-- C3 counterexample: with `previous = None` (modelled as old = `Null`), the
JSON diff does not emit the entire new node: null/empty subtrees are stripped,
here dropping the whole dynamic `"0"` whose value is `{"d": []}`. -/
theorem jdiff_null_not_whole_node :
    jdiff JValue.null (.obj [("s", .arr [.str "a"]), ("0", .obj [("d", .arr [])])]) =
      some (.obj [("s", .arr [.str "a"])]) ∧
    jdiff JValue.null (.obj [("s", .arr [.str "a"]), ("0", .obj [("d", .arr [])])]) ≠
      some (.obj [("s", .arr [.str "a"]), ("0", .obj [("d", .arr [])])]) := by
  constructor
  · simp [jdiff, strip, stripInner, stripFields, stripElems]
  · simp [jdiff, strip, stripInner, stripFields, stripElems]

/-- C3 (amended): when the statics differ, `DiffRender::diff` returns the new
node wholesale; on first render (old = `Null`) the JSON diff returns the new
value with nulls and empty containers stripped, which is the entire new value
exactly when it is clean of those. -/
theorem full_new_node_on_mismatch_or_first_render :
    (∀ a b : RenderedDiff, a.statics ≠ b.statics → rdiff a b = b) ∧
    (∀ new : JValue, cleanVal new = true → jdiff .null new = some new) := by
  constructor
  · intro a b h
    cases a with
    | mk sa da =>
      cases b with
      | mk sb db =>
          have hne : sa ≠ sb := by simpa [RenderedDiff.statics] using h
          rw [rdiff]
          simp [hne]
  · intro new h
    have hs := strip_clean new h
    calc jdiff .null new = strip ⟨true, true⟩ new := by rw [jdiff]
    _ = some new := hs

/-- Witness for the hypotheses of `full_new_node_on_mismatch_or_first_render`. -/
theorem full_new_node_on_mismatch_or_first_render_witness :
    (RenderedDiff.mk (some ["a"]) []).statics ≠ (RenderedDiff.mk (some ["b"]) []).statics ∧
    rdiff (.mk (some ["a"]) []) (.mk (some ["b"]) []) = .mk (some ["b"]) [] ∧
    cleanVal (.str "x") = true ∧
    jdiff .null (.str "x") = some (.str "x") := by
  refine ⟨by simp [RenderedDiff.statics], ?_, rfl, ?_⟩
  · exact full_new_node_on_mismatch_or_first_render.1 _ _ (by simp [RenderedDiff.statics])
  · exact full_new_node_on_mismatch_or_first_render.2 _ rfl

/-- C4: the slot-by-slot rules of `DiffRender::diff` at equal positions: a
text/text pair contributes the new string exactly when the strings differ; a
nested/nested pair contributes the recursive diff exactly when it is
non-empty; a kind change contributes the new value wholesale. -/
theorem diff_slot_rules (T1 T2 : Rendered) (hs : T1.statics = T2.statics)
    (hlen : (toDiffDyns T1.dynamics).length = (toDiffDyns T2.dynamics).length)
    (k : Nat) (x y : DDynamic)
    (hx : (toDiffDyns T1.dynamics)[k]? = some x)
    (hy : (toDiffDyns T2.dynamics)[k]? = some y) :
    (∀ a b, x = .str a → y = .str b →
      (((k, DDynamic.str b) ∈ (rdiff (toDiff T1) (toDiff T2)).dynamics) ↔ a ≠ b) ∧
      (∀ d, (k, d) ∈ (rdiff (toDiff T1) (toDiff T2)).dynamics → d = .str b)) ∧
    (∀ u v, x = .nested u → y = .nested v →
      (((k, DDynamic.nested (rdiff u v)) ∈ (rdiff (toDiff T1) (toDiff T2)).dynamics) ↔
        ¬ ((rdiff u v).statics.isNone && (rdiff u v).dynamics.isEmpty) = true) ∧
      (∀ d, (k, d) ∈ (rdiff (toDiff T1) (toDiff T2)).dynamics →
        d = .nested (rdiff u v))) ∧
    (∀ a v, x = .str a → y = .nested v →
      (k, DDynamic.nested v) ∈ (rdiff (toDiff T1) (toDiff T2)).dynamics) ∧
    (∀ u b, x = .nested u → y = .str b →
      (k, DDynamic.str b) ∈ (rdiff (toDiff T1) (toDiff T2)).dynamics) := by
  have hmem : ∀ d, (k, d) ∈ (rdiff (toDiff T1) (toDiff T2)).dynamics ↔
      ∃ x y, (toDiffDyns T1.dynamics)[k]? = some x ∧
        (toDiffDyns T2.dynamics)[k]? = some y ∧ slotPatch x y = some d :=
    fun d => rdiff_trees_mem_iff T1 T2 hs hlen k d
  refine ⟨?_, ?_, ?_, ?_⟩
  · rintro a b rfl rfl
    constructor
    · rw [hmem]
      constructor
      · rintro ⟨x2, y2, hx2, hy2, hslot⟩
        rw [hx] at hx2
        rw [hy] at hy2
        obtain rfl := Option.some.injEq .. ▸ hx2
        obtain rfl := Option.some.injEq .. ▸ hy2
        simp [slotPatch] at hslot
        intro hab
        subst hab
        simp at hslot
      · intro hab
        exact ⟨_, _, hx, hy, by simp [slotPatch, hab]⟩
    · intro d hd
      obtain ⟨x2, y2, hx2, hy2, hslot⟩ := (hmem d).mp hd
      rw [hx] at hx2
      rw [hy] at hy2
      obtain rfl := Option.some.injEq .. ▸ hx2
      obtain rfl := Option.some.injEq .. ▸ hy2
      simp [slotPatch] at hslot
      exact hslot.2.symm
  · rintro u v rfl rfl
    constructor
    · rw [hmem]
      constructor
      · rintro ⟨x2, y2, hx2, hy2, hslot⟩
        rw [hx] at hx2
        rw [hy] at hy2
        obtain rfl := Option.some.injEq .. ▸ hx2
        obtain rfl := Option.some.injEq .. ▸ hy2
        simp only [slotPatch] at hslot
        intro hempty
        rw [hempty] at hslot
        simp at hslot
      · intro hne
        refine ⟨_, _, hx, hy, ?_⟩
        simp only [slotPatch]
        split
        · simp_all
        · rfl
    · intro d hd
      obtain ⟨x2, y2, hx2, hy2, hslot⟩ := (hmem d).mp hd
      rw [hx] at hx2
      rw [hy] at hy2
      obtain rfl := Option.some.injEq .. ▸ hx2
      obtain rfl := Option.some.injEq .. ▸ hy2
      simp only [slotPatch] at hslot
      split at hslot
      · simp at hslot
      · simp at hslot
        exact hslot.symm
  · rintro a v rfl rfl
    rw [hmem]
    exact ⟨_, _, hx, hy, by simp [slotPatch]⟩
  · rintro u b rfl rfl
    rw [hmem]
    exact ⟨_, _, hx, hy, by simp [slotPatch]⟩

/-- Witness for the hypotheses of `diff_slot_rules`. -/
theorem diff_slot_rules_witness :
    (Rendered.mk ["u", "v"] [.str "a"]).statics =
      (Rendered.mk ["u", "v"] [.str "b"]).statics ∧
    ((0, DDynamic.str "b") ∈
      (rdiff (toDiff (.mk ["u", "v"] [.str "a"]))
        (toDiff (.mk ["u", "v"] [.str "b"]))).dynamics ↔ "a" ≠ "b") := by
  refine ⟨rfl, ?_⟩
  exact ((diff_slot_rules (.mk ["u", "v"] [.str "a"]) (.mk ["u", "v"] [.str "b"])
    rfl rfl 0 (.str "a") (.str "b") rfl rfl).1 "a" "b" rfl rfl).1

/-- C10: the flattened-text rendering of a tree with no dynamics is the empty
string even when statics is non-empty, and with at least one dynamic slot and
the length invariant it is exactly the statics/dynamics interleaving. -/
theorem display_empty_dynamics_and_interleave :
    (∀ statics : List String, renderedText (.mk statics []) = "") ∧
    (∀ (s : List String) (ds : List RDynamic), ds ≠ [] → s.length = ds.length + 1 →
      renderedText (.mk s ds) = specInterleave s ds) := by
  constructor
  · intro statics
    cases statics with
    | nil => rw [renderedText]; simp [pairsText]
    | cons x ss => rw [renderedText]; simp [pairsText]
  · intro s ds hne hlen
    rw [renderedText]
    have hempty : ds.isEmpty = false := by
      cases ds with
      | nil => exact absurd rfl hne
      | cons d ds2 => rfl
    rw [hempty]
    simpa using pairsText_append_last ds s hlen

/-- Witness for the hypotheses of `display_empty_dynamics_and_interleave`. -/
theorem display_empty_dynamics_and_interleave_witness :
    renderedText (.mk ["hello"] []) = "" ∧
    renderedText (.mk ["a", "c"] [.str "b"]) = specInterleave ["a", "c"] [.str "b"] := by
  exact ⟨display_empty_dynamics_and_interleave.1 ["hello"],
    display_empty_dynamics_and_interleave.2 ["a", "c"] [.str "b"] (by simp) rfl⟩

/-! ## `src/rendered/builder.rs`: the arena tree builder

The templates-bearing `Rendered` produced by this builder (fields
`statics`, `dynamics: Dynamics<Rendered, RenderedListItem>`,
`templates: Vec<Vec<String>>`) is reconstructed from its uses in
`src/rendered/builder.rs` and the expected values in that file's tests. -/

mutual

/-- The templates-bearing `Rendered` built by `RenderedBuilder`. -/
inductive RenderedT where
  | mk (statics : List String) (dynamics : DynamicsT) (templates : List (List String))

/-- `Dynamics<Rendered, RenderedListItem>`. -/
inductive DynamicsT where
  | items (ds : List ItemDyn)
  | list (rows : List (List ListDyn))

/-- `Dynamic<Rendered>` inside `DynamicItems`. -/
inductive ItemDyn where
  | str (s : String)
  | nested (r : RenderedT)

/-- `Dynamic<RenderedListItem>` inside `DynamicList` rows. -/
inductive ListDyn where
  | str (s : String)
  | nested (li : RenderedListItem)

/-- `RenderedListItem`: a template id plus per-row dynamics. -/
inductive RenderedListItem where
  | mk (statics : Nat) (dynamics : List DynamicsT)

end

def RenderedT.statics : RenderedT → List String
  | .mk s _ _ => s

def RenderedT.dynamics : RenderedT → DynamicsT
  | .mk _ d _ => d

def RenderedT.templates : RenderedT → List (List String)
  | .mk _ _ t => t

mutual

/-- `DynamicNode` of `builder.rs`; the arena `NodeId` reference is replaced by
the directly embedded child node. -/
inductive DynamicNode where
  | str (s : String)
  | nested (v : NodeValue)

/-- `NodeValue` of `builder.rs`. -/
inductive NodeValue where
  | items (n : ItemsNode)
  | list (n : ListNode)
  | nestedR (r : RenderedT)

/-- `ItemsNode` of `builder.rs`. -/
inductive ItemsNode where
  | mk (statics : List String) (dynamics : List DynamicNode)
      (templates : List (List String))

/-- `ListNode` of `builder.rs`.  `iteration: usize` starts at `usize::MAX` and
is bumped with `wrapping_add(1)`; we model it as `Option Nat` with `none` for
the `MAX` sentinel (a further wrap would need 2^64 iterations). -/
inductive ListNode where
  | mk (statics : List String) (dynamics : List (List DynamicNode))
      (iteration : Option Nat)

end

/-- `insert_empty_strings` of `builder.rs`.  The Rust `dynamics_len + 1 -
statics.len()` is `usize` arithmetic that panics on underflow; every reachable
call site keeps `statics.len() ≤ dynamics_len + 1` (proved below), where the
truncated `Nat` subtraction used here agrees with it. -/
def insert_empty_strings (statics : List String) (dynamicsLen : Nat) : List String :=
  if dynamicsLen > 0 then
    statics ++ List.replicate (dynamicsLen + 1 - statics.length) ""
  else statics

/-- `push_or_extend_static_string` of `builder.rs`: extend the last static if
there are already more statics than dynamics, else push a new one. -/
def push_or_extend (statics : List String) (dynamicsLen : Nat) (s : String) :
    List String :=
  match statics.getLast? with
  | some lastStr =>
      if statics.length > dynamicsLen then statics.dropLast ++ [lastStr ++ s]
      else statics ++ [s]
  | none => statics ++ [s]

/-- `ItemsNode::push_static`. -/
def ItemsNode.push_static : ItemsNode → String → ItemsNode
  | .mk st dy ts, s => .mk (push_or_extend st dy.length s) dy ts

/-- `ItemsNode::push_dynamic`. -/
def ItemsNode.push_dynamic : ItemsNode → String → ItemsNode
  | .mk st dy ts, s =>
      .mk (if st.isEmpty then [""] else st) (dy ++ [.str s]) ts

/-- `self.dynamics.first().map(|first| first.len()).unwrap_or(0)`. -/
def rowsFirstLen (rows : List (List DynamicNode)) : Nat :=
  (rows.head?.map List.length).getD 0

/-- `ListNode::push_static`: only the first iteration (`iteration == 0`)
contributes statics. -/
def ListNode.push_static : ListNode → String → ListNode
  | .mk st rows it, s =>
      if it = some 0 then .mk (push_or_extend st (rowsFirstLen rows) s) rows it
      else .mk st rows it

/-- `ListNode::push_dynamic`: appends to the last row;
`last_mut().unwrap()` panics when no row was started. -/
def ListNode.push_dynamic : ListNode → String → Option ListNode
  | .mk st rows it, s =>
      match rows.getLast? with
      | some lastRow => some (.mk st (rows.dropLast ++ [lastRow ++ [.str s]]) it)
      | none => none

/-- The builder operations driven by the `html!` macro (`RenderedBuilder`'s
public methods). -/
inductive BOp where
  | pushStatic (s : String)
  | pushDynamic (s : String)
  | pushNested (r : RenderedT)
  | pushIfFrame
  | pushForFrame
  | pushForItem
  | popForItem
  | popFrame

/-- The builder state: the stack of arena nodes from the current node
(`last_node`, the head) up to the root (the last element).  Children created by
`push_dynamic_node` are linked into their parent when the frame is popped; the
parent is untouched while a child frame is open, so this matches the arena
which links at push time.  An unpopped frame only matters because `build`
builds the *current* node, which is the head here as in the arena. -/
abbrev BStack := List NodeValue

def initStack : BStack := [.items (.mk [] [] [])]

/-- `RenderedBuilder::push_if_frame` / `push_for_frame` via
`push_dynamic_node`: the new node becomes the current node; linking into the
parent (`dynamics.push(Nested(id))` plus the statics bookkeeping) is performed
at pop time, see `BStack`. -/
def pushDynamicNode (v : NodeValue) : BStack → Option BStack
  | cur :: rest =>
      match cur with
      | .items _ => some (v :: cur :: rest)
      | .list _ => some (v :: cur :: rest)
      | .nestedR _ => none
  | [] => none

/-- One builder operation as a partial state transition; `none` models a Rust
panic (`unwrap`, `panic!` or `todo!`), including the poisoned builder obtained
by popping past the root (every later operation and the final `build` then
panic on the null arena key). -/
def runOp : BOp → BStack → Option BStack
  | .pushStatic s, cur :: rest =>
      match cur with
      | .items n => some (.items (n.push_static s) :: rest)
      | .list n => some (.list (n.push_static s) :: rest)
      | .nestedR _ => none
  | .pushDynamic s, cur :: rest =>
      match cur with
      | .items n => some (.items (n.push_dynamic s) :: rest)
      | .list n => (n.push_dynamic s).map (fun n2 => .list n2 :: rest)
      | .nestedR _ => none
  | .pushNested r, cur :: rest =>
      match cur with
      | .items (.mk st dy ts) =>
          some (.items (.mk (st ++ [""]) (dy ++ [.nested (.nestedR r)]) ts) :: rest)
      | _ => none
  | .pushIfFrame, st => pushDynamicNode (.items (.mk [] [] [])) st
  | .pushForFrame, st => pushDynamicNode (.list (.mk [] [] none)) st
  | .pushForItem, cur :: rest =>
      match cur with
      | .list (.mk st rows it) =>
          some (.list (.mk st (rows ++ [[]])
            (some (match it with | none => 0 | some k => k + 1))) :: rest)
      | _ => none
  | .popForItem, st => some st
  | .popFrame, cur :: parent :: rest =>
      match parent with
      | .items (.mk st dy ts) =>
          some (.items (.mk (st ++ [""]) (dy ++ [.nested cur]) ts) :: rest)
      | .list (.mk st rows it) =>
          match rows.getLast? with
          | some lastRow =>
              some (.list (.mk st (rows.dropLast ++ [lastRow ++ [.nested cur]]) it) :: rest)
          | none => some (.list (.mk (st ++ [""]) [[.nested cur]] it) :: rest)
      | .nestedR _ => none
  | .popFrame, [_] => none
  | _, [] => none

/-- Runs a sequence of builder operations from a given state. -/
def runOps : List BOp → BStack → Option BStack
  | [], st => some st
  | op :: ops, st => (runOp op st).bind (runOps ops)

/-- `vecs_match` of `builder.rs`. -/
def vecs_match (a b : List String) : Bool :=
  ((a.zip b).filter (fun p => p.1 == p.2)).length == a.length &&
  ((a.zip b).filter (fun p => p.1 == p.2)).length == b.length

/-- The `templates.iter().enumerate().find_map(...)` lookup of `build_list`. -/
def findTemplate : List (List String) → List String → Option Nat
  | [], _ => none
  | t :: rest, statics =>
      if vecs_match t statics then some 0
      else (findTemplate rest statics).map (fun i => i + 1)

/-- `insert_empty_strings(templates.last_mut().unwrap(), longest)`; the
`unwrap` cannot fail at its call site because the preceding lookup-or-push
leaves the table non-empty. -/
def padLastTemplate (ts : List (List String)) (longest : Nat) : List (List String) :=
  match ts.getLast? with
  | some lastT => ts.dropLast ++ [insert_empty_strings lastT longest]
  | none => ts

/-- First-row slot count of built list dynamics. -/
def rowsFirstLenT (rows : List (List ListDyn)) : Nat :=
  (rows.head?.map List.length).getD 0

mutual

/-- `Node::build`. -/
def NodeValue.build : NodeValue → Option RenderedT
  | .items n => n.build
  | .list n => n.build
  | .nestedR r => some r

/-- `ItemsNode::build`. -/
def ItemsNode.build : ItemsNode → Option RenderedT
  | .mk statics dynamics templates => do
      let ds ← buildItemsDyns dynamics
      pure (.mk (insert_empty_strings statics ds.length) (.items ds) templates)

/-- The `dynamics.into_iter().map(build_items)` loop of `ItemsNode::build`. -/
def buildItemsDyns : List DynamicNode → Option (List ItemDyn)
  | [] => some []
  | d :: ds => do
      let x ← buildItemsDyn d
      let xs ← buildItemsDyns ds
      pure (x :: xs)

/-- `DynamicNode::build_items`: build the child, collapse a completely empty
child to `Text("")`, otherwise pad its statics to the slot count. -/
def buildItemsDyn : DynamicNode → Option ItemDyn
  | .str s => some (.str s)
  | .nested v => do
      let nested ← v.build
      match nested with
      | .mk st (.items ds) ts =>
          if st.isEmpty && ds.isEmpty then pure (.str "")
          else pure (.nested (.mk (insert_empty_strings st ds.length) (.items ds) ts))
      | .mk st (.list rows) ts =>
          if st.isEmpty && (rowsFirstLenT rows == 0) then pure (.str "")
          else pure (.nested (.mk (insert_empty_strings st (rowsFirstLenT rows))
            (.list rows) ts))

/-- `ListNode::build`: rows are built against a fresh template table; the
list statics are passed through unpadded. -/
def ListNode.build : ListNode → Option RenderedT
  | .mk statics rows _ => do
      let res ← buildRows rows []
      pure (.mk statics (.list res.1) res.2)

/-- The row loop of `ListNode::build`, threading the template table. -/
def buildRows : List (List DynamicNode) → List (List String) →
    Option (List (List ListDyn) × List (List String))
  | [], ts => some ([], ts)
  | row :: rest, ts => do
      let r ← buildListDyns row ts
      let rs ← buildRows rest r.2
      pure (r.1 :: rs.1, rs.2)

/-- The per-row `dynamics.into_iter().map(build_list)` loop. -/
def buildListDyns : List DynamicNode → List (List String) →
    Option (List ListDyn × List (List String))
  | [], ts => some ([], ts)
  | d :: ds, ts => do
      let x ← buildListDyn d ts
      let xs ← buildListDyns ds x.2
      pure (x.1 :: xs.1, xs.2)

/-- `DynamicNode::build_list`.  For an `Items` child: build its dynamics, pad
its statics, then look the statics up in the template table, pushing a new
entry if absent.  For a `List` child (nested loop): build each row as a
singleton `Dynamics::List`, look up / push the *unpadded* statics, then pad
the *last* table entry with the longest row length.  A `Nested` child is
`todo!()` in the source and yields `none`. -/
def buildListDyn : DynamicNode → List (List String) →
    Option (ListDyn × List (List String))
  | .str s, ts => some (.str s, ts)
  | .nested v, ts =>
      match v with
      | .nestedR _ => none
      | .items (.mk st dyns _ts) =>
          if st.isEmpty && dyns.isEmpty then some (.str "", ts)
          else do
            let r ← buildListDyns dyns ts
            let st2 := insert_empty_strings st r.1.length
            match findTemplate r.2 st2 with
            | some i => pure (.nested (.mk i [.list [r.1]]), r.2)
            | none => pure (.nested (.mk r.2.length [.list [r.1]]), r.2 ++ [st2])
      | .list (.mk st rows _it) => do
          let r ← buildNestedRows rows ts
          match findTemplate r.2.1 st with
          | some i =>
              pure (.nested (.mk i r.1), padLastTemplate r.2.1 r.2.2)
          | none =>
              pure (.nested (.mk r.2.1.length r.1),
                padLastTemplate (r.2.1 ++ [st]) r.2.2)

/-- The row loop of `build_list`'s nested-`List` case: each row becomes a
singleton `Dynamics::List`, and the longest row length is tracked. -/
def buildNestedRows : List (List DynamicNode) → List (List String) →
    Option (List DynamicsT × (List (List String) × Nat))
  | [], ts => some ([], (ts, 0))
  | row :: rest, ts => do
      let r ← buildListDyns row ts
      let rs ← buildNestedRows rest r.2
      pure (DynamicsT.list [r.1] :: rs.1, (rs.2.1, max rs.2.2 r.1.length))

end

/-- `RenderedBuilder::build`: removes and builds the *current* node. -/
def buildStack : BStack → Option RenderedT
  | cur :: _ => cur.build
  | [] => none

def ItemsNode.statics : ItemsNode → List String
  | .mk s _ _ => s

def ItemsNode.dynamics : ItemsNode → List DynamicNode
  | .mk _ d _ => d

def ItemsNode.templates : ItemsNode → List (List String)
  | .mk _ _ t => t

/-- C6: opening an if frame and popping it with no content in between leaves
the parent with one extra dynamic holding the empty items child, and building
that child collapses it to `Text("")` — on both the ordinary path
(`build_items`) and the loop-row path (`build_list`), where it adds no
template-table entry. -/
theorem empty_if_frame_collapses_to_text :
    (∀ (n : ItemsNode) (rest : List NodeValue),
      runOps [.pushIfFrame, .popFrame] (NodeValue.items n :: rest) =
        some (NodeValue.items (.mk (n.statics ++ [""])
          (n.dynamics ++ [.nested (.items (.mk [] [] []))]) n.templates) :: rest)) ∧
    buildItemsDyn (.nested (.items (.mk [] [] []))) = some (.str "") ∧
    (∀ ts, buildListDyn (.nested (.items (.mk [] [] []))) ts = some (.str "", ts)) := by
  refine ⟨?_, rfl, fun ts => rfl⟩
  intro n rest
  cases n with
  | mk st dy t => rfl

/-- C7: inside a loop frame, static pushes are retained (via
`push_or_extend`) only while `iteration == 0` (the first `push_for_item`);
in every later iteration they are discarded, while dynamic pushes always
append to the current (last) row, leaving statics and earlier rows
unchanged; `push_for_item` starts a new empty row and bumps the iteration. -/
theorem loop_first_iteration_statics_only :
    (∀ (st : List String) (rows : List (List DynamicNode)) (it : Option Nat)
        (s : String), it ≠ some 0 →
      ListNode.push_static (.mk st rows it) s = .mk st rows it) ∧
    (∀ (st : List String) (rows : List (List DynamicNode)) (s : String),
      ListNode.push_static (.mk st rows (some 0)) s =
        .mk (push_or_extend st (rowsFirstLen rows) s) rows (some 0)) ∧
    (∀ (st : List String) (rows : List (List DynamicNode)) (it : Option Nat)
        (s : String) (lastRow : List DynamicNode), rows.getLast? = some lastRow →
      ListNode.push_dynamic (.mk st rows it) s =
        some (.mk st (rows.dropLast ++ [lastRow ++ [.str s]]) it)) ∧
    (∀ (st : List String) (rows : List (List DynamicNode)) (it : Option Nat)
        (rest : List NodeValue),
      runOp .pushForItem (NodeValue.list (.mk st rows it) :: rest) =
        some (.list (.mk st (rows ++ [[]])
          (some (match it with | none => 0 | some k => k + 1))) :: rest)) := by
  refine ⟨?_, ?_, ?_, ?_⟩
  · intro st rows it s h
    simp [ListNode.push_static, h]
  · intro st rows s
    simp [ListNode.push_static]
  · intro st rows it s lastRow h
    simp [ListNode.push_dynamic, h]
  · intro st rows it rest
    rfl

/-- Witness for the hypotheses of `loop_first_iteration_statics_only`. -/
theorem loop_first_iteration_statics_only_witness :
    ListNode.push_static (.mk ["a"] [[]] (some 1)) "b" = .mk ["a"] [[]] (some 1) ∧
    ListNode.push_dynamic (.mk ["a"] [[]] (some 0)) "d" =
      some (.mk ["a"] [[.str "d"]] (some 0)) := by
  constructor
  · exact loop_first_iteration_statics_only.1 ["a"] [[]] (some 1) "b" (by simp)
  · have := loop_first_iteration_statics_only.2.2.1 ["a"] [[]] (some 0) "d" [] rfl
    simpa using this

/-- C8 failing input: a loop whose row contains an if-body with statics
`["x", ""]` and then a nested loop with (unpadded) statics `["x"]`.
`build_list` looks the nested loop's statics up *before* padding and pads the
freshly pushed table entry afterwards, so the table ends up holding
`["x", ""]` twice, and the two structurally identical rows reference the
*different* template ids 0 and 1. -/
theorem template_table_duplicate_on_nested_list :
    ((runOps [.pushForFrame, .pushForItem, .pushIfFrame, .pushStatic "x",
        .pushDynamic "d", .popFrame, .pushForFrame, .pushForItem, .pushStatic "x",
        .pushDynamic "d", .popForItem, .popFrame, .popForItem, .popFrame]
      initStack).bind buildStack) =
      some (.mk ["", ""]
        (.items [.nested (.mk ["", "", ""]
          (.list [[.nested (.mk 0 [.list [[.str "d"]]]),
                   .nested (.mk 1 [.list [[.str "d"]]])]])
          [["x", ""], ["x", ""]])])
        []) ∧
    [["x", ""], ["x", ""]][0]? = [["x", ""], ["x", ""]][1]? := by
  exact ⟨rfl, rfl⟩

/-! ## The statics/dynamics length invariant of built trees (claim C5) -/

mutual

/-- Every node of a built tree satisfies `len(statics) = len(dynamics) + 1`:
items nodes against their slot count, list nodes against their first row's
slot count; nested trees inside items slots recursively.  (List rows hold
`RenderedListItem`s, whose statics live in the template table.) -/
def treeOk : RenderedT → Bool
  | .mk st (.items ds) _ => (st.length == ds.length + 1) && itemsTreeOk ds

  | .mk st (.list rows) _ => st.length == rowsFirstLenT rows + 1

def itemsTreeOk : List ItemDyn → Bool
  | [] => true
  | .str _ :: rest => itemsTreeOk rest
  | .nested r :: rest => treeOk r && itemsTreeOk rest

end

/-- A tree that `build_items` collapses to `Text("")`. -/
def collapsible : RenderedT → Bool
  | .mk st (.items ds) _ => st.isEmpty && ds.isEmpty
  | .mk st (.list rows) _ => st.isEmpty && (rowsFirstLenT rows == 0)

/-- Admissible payload for `push_nested`: an already built tree (satisfying
the invariant) or one that collapses to `Text("")`. -/
def pushOk (r : RenderedT) : Bool := treeOk r || collapsible r

mutual

/-- Invariant of builder nodes while building: statics never exceed the slot
count by more than one, and all embedded children satisfy the same. -/
def NodeOk : NodeValue → Prop
  | .items (.mk st dy _) => st.length ≤ dy.length + 1 ∧ DynsOk dy
  | .list (.mk st rows _) => st.length ≤ rowsFirstLen rows + 1 ∧ RowsOk rows
  | .nestedR r => pushOk r = true

def DynOk : DynamicNode → Prop
  | .str _ => True
  | .nested v => NodeOk v

def DynsOk : List DynamicNode → Prop
  | [] => True
  | d :: rest => DynOk d ∧ DynsOk rest

def RowsOk : List (List DynamicNode) → Prop
  | [] => True
  | row :: rest => DynsOk row ∧ RowsOk rest

end

/-- Constraint a builder operation puts on its payload: `push_nested` only
receives built trees. -/
def BOpOk : BOp → Prop
  | .pushNested r => pushOk r = true
  | _ => True

theorem DynsOk_append (a b : List DynamicNode) :
    DynsOk (a ++ b) ↔ DynsOk a ∧ DynsOk b := by
  induction a with
  | nil => simp [DynsOk]
  | cons d rest ih => simp [DynsOk, ih, and_assoc]

theorem RowsOk_append (a b : List (List DynamicNode)) :
    RowsOk (a ++ b) ↔ RowsOk a ∧ RowsOk b := by
  induction a with
  | nil => simp [RowsOk]
  | cons r rest ih => simp [RowsOk, ih, and_assoc]

theorem push_or_extend_len_le (st : List String) (d : Nat) (s : String)
    (h : st.length ≤ d + 1) : (push_or_extend st d s).length ≤ d + 1 := by
  unfold push_or_extend
  cases hlast : st.getLast? with
  | none =>
      have : st = [] := by
        cases st with
        | nil => rfl
        | cons x ss => simp [List.getLast?_concat] at hlast
      subst this
      simp
  | some x =>
      have hne : st ≠ [] := by
        intro h0
        rw [h0] at hlast
        simp at hlast
      by_cases hgt : st.length > d
      · simp only [hgt, if_true]
        rw [List.length_append, List.length_dropLast]
        have : 1 ≤ st.length := List.length_pos.mpr hne
        simp
        omega
      · simp only [hgt, if_false]
        rw [List.length_append]
        simp
        omega

theorem insert_empty_strings_length (st : List String) (n : Nat)
    (h : st.length ≤ n + 1) :
    (insert_empty_strings st n).length = if n > 0 then n + 1 else st.length := by
  unfold insert_empty_strings
  split
  · rw [List.length_append, List.length_replicate]
    omega
  · rfl

theorem rowsFirstLen_set_last (rows : List (List DynamicNode))
    (lastRow : List DynamicNode) (d : DynamicNode)
    (h : rows.getLast? = some lastRow) :
    rowsFirstLen rows ≤ rowsFirstLen (rows.dropLast ++ [lastRow ++ [d]]) := by
  cases rows with
  | nil => simp at h
  | cons r rest =>
      cases rest with
      | nil =>
          have : r = lastRow := by simpa using h
          subst this
          simp [rowsFirstLen]
      | cons r2 rest2 =>
          simp [rowsFirstLen, List.dropLast]

theorem RowsOk_set_last (rows : List (List DynamicNode))
    (lastRow : List DynamicNode) (d : DynamicNode)
    (h : rows.getLast? = some lastRow) (hok : RowsOk rows) (hd : DynOk d) :
    RowsOk (rows.dropLast ++ [lastRow ++ [d]]) := by
  have hne : rows ≠ [] := by
    intro h0
    rw [h0] at h
    simp at h
  have hsplit : rows = rows.dropLast ++ [lastRow] := by
    have := List.dropLast_append_getLast hne
    rw [List.getLast?_eq_getLast rows hne] at h
    have hl : rows.getLast hne = lastRow := by simpa using h
    rw [← hl]
    exact this.symm
  rw [hsplit] at hok
  have := (RowsOk_append _ _).mp hok
  refine (RowsOk_append _ _).mpr ⟨this.1, ?_⟩
  have hlastok : DynsOk lastRow := by
    have h2 := this.2
    simpa [RowsOk] using h2.1
  constructor
  · exact (DynsOk_append _ _).mpr ⟨hlastok, by simp [DynsOk, hd]⟩
  · trivial

theorem NodeOk_items_iff (st : List String) (dy : List DynamicNode)
    (ts : List (List String)) :
    NodeOk (.items (.mk st dy ts)) ↔ st.length ≤ dy.length + 1 ∧ DynsOk dy := by
  simp [NodeOk]

theorem NodeOk_list_iff (st : List String) (rows : List (List DynamicNode))
    (it : Option Nat) :
    NodeOk (.list (.mk st rows it)) ↔
      st.length ≤ rowsFirstLen rows + 1 ∧ RowsOk rows := by
  simp [NodeOk]

theorem rowsFirstLen_append_row (rows : List (List DynamicNode))
    (row : List DynamicNode) :
    rowsFirstLen (rows ++ [row]) =
      if rows.isEmpty then row.length else rowsFirstLen rows := by
  cases rows <;> simp [rowsFirstLen]

/-- Every builder step keeps all stack nodes well-formed. -/
theorem runOp_preserves (op : BOp) (st st2 : BStack) (hop : BOpOk op)
    (h : runOp op st = some st2) (hok : ∀ v ∈ st, NodeOk v) :
    ∀ v ∈ st2, NodeOk v := by
  cases op with
  | pushStatic s =>
      cases st with
      | nil => simp [runOp] at h
      | cons cur rest =>
          cases cur with
          | items n =>
              cases n with
              | mk stt dy ts =>
                  have h2 : st2 = .items ((ItemsNode.mk stt dy ts).push_static s) :: rest := by
                    simpa [runOp] using h.symm
                  subst h2
                  intro v hv
                  rcases List.mem_cons.mp hv with rfl | hv
                  · have hcur := (NodeOk_items_iff stt dy ts).mp
                      (hok _ (List.mem_cons_self ..))
                    rw [ItemsNode.push_static]
                    exact (NodeOk_items_iff _ _ _).mpr
                      ⟨push_or_extend_len_le _ _ _ hcur.1, hcur.2⟩
                  · exact hok _ (List.mem_cons_of_mem _ hv)
          | list n =>
              cases n with
              | mk stt rows it =>
                  have h2 : st2 = .list ((ListNode.mk stt rows it).push_static s) :: rest := by
                    simpa [runOp] using h.symm
                  subst h2
                  intro v hv
                  rcases List.mem_cons.mp hv with rfl | hv
                  · have hcur := (NodeOk_list_iff stt rows it).mp
                      (hok _ (List.mem_cons_self ..))
                    rw [ListNode.push_static]
                    split
                    · exact (NodeOk_list_iff _ _ _).mpr
                        ⟨push_or_extend_len_le _ _ _ hcur.1, hcur.2⟩
                    · exact (NodeOk_list_iff _ _ _).mpr hcur
                  · exact hok _ (List.mem_cons_of_mem _ hv)
          | nestedR r => simp [runOp] at h
  | pushDynamic s =>
      cases st with
      | nil => simp [runOp] at h
      | cons cur rest =>
          cases cur with
          | items n =>
              cases n with
              | mk stt dy ts =>
                  have h2 : st2 = .items ((ItemsNode.mk stt dy ts).push_dynamic s) :: rest := by
                    simpa [runOp] using h.symm
                  subst h2
                  intro v hv
                  rcases List.mem_cons.mp hv with rfl | hv
                  · have hcur := (NodeOk_items_iff stt dy ts).mp
                      (hok _ (List.mem_cons_self ..))
                    rw [ItemsNode.push_dynamic]
                    refine (NodeOk_items_iff _ _ _).mpr ⟨?_, ?_⟩
                    · split
                      · simp
                      · rw [List.length_append]
                        have := hcur.1
                        simp
                        omega
                    · exact (DynsOk_append _ _).mpr ⟨hcur.2, by simp [DynsOk, DynOk]⟩
                  · exact hok _ (List.mem_cons_of_mem _ hv)
          | list n =>
              cases n with
              | mk stt rows it =>
                  cases hlast : rows.getLast? with
                  | none => simp [runOp, ListNode.push_dynamic, hlast] at h
                  | some lastRow =>
                      have h2 : st2 = .list (.mk stt
                          (rows.dropLast ++ [lastRow ++ [.str s]]) it) :: rest := by
                        simpa [runOp, ListNode.push_dynamic, hlast] using h.symm
                      subst h2
                      intro v hv
                      rcases List.mem_cons.mp hv with rfl | hv
                      · have hcur := (NodeOk_list_iff stt rows it).mp
                          (hok _ (List.mem_cons_self ..))
                        refine (NodeOk_list_iff _ _ _).mpr ⟨?_, ?_⟩
                        · have := rowsFirstLen_set_last rows lastRow (.str s) hlast
                          have h1 := hcur.1
                          omega
                        · exact RowsOk_set_last rows lastRow _ hlast hcur.2 trivial
                      · exact hok _ (List.mem_cons_of_mem _ hv)
          | nestedR r => simp [runOp] at h
  | pushNested r =>
      cases st with
      | nil => simp [runOp] at h
      | cons cur rest =>
          cases cur with
          | items n =>
              cases n with
              | mk stt dy ts =>
                  have h2 : st2 = .items (.mk (stt ++ [""])
                      (dy ++ [.nested (.nestedR r)]) ts) :: rest := by
                    simpa [runOp] using h.symm
                  subst h2
                  intro v hv
                  rcases List.mem_cons.mp hv with rfl | hv
                  · have hcur := (NodeOk_items_iff stt dy ts).mp
                      (hok _ (List.mem_cons_self ..))
                    refine (NodeOk_items_iff _ _ _).mpr ⟨?_, ?_⟩
                    · rw [List.length_append, List.length_append]
                      have := hcur.1
                      simp
                      omega
                    · refine (DynsOk_append _ _).mpr ⟨hcur.2, ?_⟩
                      have hr : pushOk r = true := hop
                      simp [DynsOk, DynOk, NodeOk, hr]
                  · exact hok _ (List.mem_cons_of_mem _ hv)
          | list n => simp [runOp] at h
          | nestedR r2 => simp [runOp] at h
  | pushIfFrame =>
      cases st with
      | nil => simp [runOp, pushDynamicNode] at h
      | cons cur rest =>
          cases cur with
          | items n =>
              have h2 : st2 = .items (.mk [] [] []) :: .items n :: rest := by
                simpa [runOp, pushDynamicNode] using h.symm
              subst h2
              intro v hv
              rcases List.mem_cons.mp hv with rfl | hv
              · exact (NodeOk_items_iff _ _ _).mpr ⟨by simp, trivial⟩
              · exact hok _ hv
          | list n =>
              have h2 : st2 = .items (.mk [] [] []) :: .list n :: rest := by
                simpa [runOp, pushDynamicNode] using h.symm
              subst h2
              intro v hv
              rcases List.mem_cons.mp hv with rfl | hv
              · exact (NodeOk_items_iff _ _ _).mpr ⟨by simp, trivial⟩
              · exact hok _ hv
          | nestedR r => simp [runOp, pushDynamicNode] at h
  | pushForFrame =>
      cases st with
      | nil => simp [runOp, pushDynamicNode] at h
      | cons cur rest =>
          cases cur with
          | items n =>
              have h2 : st2 = .list (.mk [] [] none) :: .items n :: rest := by
                simpa [runOp, pushDynamicNode] using h.symm
              subst h2
              intro v hv
              rcases List.mem_cons.mp hv with rfl | hv
              · exact (NodeOk_list_iff _ _ _).mpr ⟨by simp [rowsFirstLen], trivial⟩
              · exact hok _ hv
          | list n =>
              have h2 : st2 = .list (.mk [] [] none) :: .list n :: rest := by
                simpa [runOp, pushDynamicNode] using h.symm
              subst h2
              intro v hv
              rcases List.mem_cons.mp hv with rfl | hv
              · exact (NodeOk_list_iff _ _ _).mpr ⟨by simp [rowsFirstLen], trivial⟩
              · exact hok _ hv
          | nestedR r => simp [runOp, pushDynamicNode] at h
  | pushForItem =>
      cases st with
      | nil => simp [runOp] at h
      | cons cur rest =>
          cases cur with
          | items n => simp [runOp] at h
          | list n =>
              cases n with
              | mk stt rows it =>
                  have hgen : ∀ k : Nat,
                      st2 = .list (.mk stt (rows ++ [[]]) (some k)) :: rest →
                      ∀ v ∈ st2, NodeOk v := by
                    intro k h2
                    subst h2
                    intro v hv
                    rcases List.mem_cons.mp hv with rfl | hv
                    · have hcur := (NodeOk_list_iff stt rows it).mp
                        (hok _ (List.mem_cons_self ..))
                      refine (NodeOk_list_iff _ _ _).mpr ⟨?_, ?_⟩
                      · rw [rowsFirstLen_append_row]
                        have h1 := hcur.1
                        cases rows with
                        | nil => simpa [rowsFirstLen] using h1
                        | cons a b => simpa using h1
                      · exact (RowsOk_append _ _).mpr ⟨hcur.2, by simp [RowsOk, DynsOk]⟩
                    · exact hok _ (List.mem_cons_of_mem _ hv)
                  cases it with
                  | none => exact hgen 0 (by simpa [runOp] using h.symm)
                  | some k => exact hgen (k + 1) (by simpa [runOp] using h.symm)
          | nestedR r => simp [runOp] at h
  | popForItem =>
      have h2 : st2 = st := by simpa [runOp] using h.symm
      subst h2
      exact hok
  | popFrame =>
      cases st with
      | nil => simp [runOp] at h
      | cons cur rest0 =>
          cases rest0 with
          | nil => simp [runOp] at h
          | cons parent rest =>
              have hcur : NodeOk cur := hok _ (List.mem_cons_self ..)
              cases parent with
              | items n =>
                  cases n with
                  | mk stp dyp tsp =>
                      have h2 : st2 = .items (.mk (stp ++ [""])
                          (dyp ++ [.nested cur]) tsp) :: rest := by
                        simpa [runOp] using h.symm
                      subst h2
                      intro v hv
                      rcases List.mem_cons.mp hv with rfl | hv
                      · have hpar := (NodeOk_items_iff stp dyp tsp).mp
                          (hok _ (List.mem_cons_of_mem _ (List.mem_cons_self ..)))
                        refine (NodeOk_items_iff _ _ _).mpr ⟨?_, ?_⟩
                        · rw [List.length_append, List.length_append]
                          have := hpar.1
                          simp
                          omega
                        · exact (DynsOk_append _ _).mpr
                            ⟨hpar.2, by simp [DynsOk, DynOk]; exact hcur⟩
                      · exact hok _ (List.mem_cons_of_mem _ (List.mem_cons_of_mem _ hv))
              | list n =>
                  cases n with
                  | mk stp rows it =>
                      have hpar := (NodeOk_list_iff stp rows it).mp
                        (hok _ (List.mem_cons_of_mem _ (List.mem_cons_self ..)))
                      cases hlast : rows.getLast? with
                      | some lastRow =>
                          have h2 : st2 = .list (.mk stp
                              (rows.dropLast ++ [lastRow ++ [.nested cur]]) it) :: rest := by
                            simpa [runOp, hlast] using h.symm
                          subst h2
                          intro v hv
                          rcases List.mem_cons.mp hv with rfl | hv
                          · refine (NodeOk_list_iff _ _ _).mpr ⟨?_, ?_⟩
                            · have := rowsFirstLen_set_last rows lastRow (.nested cur) hlast
                              have h1 := hpar.1
                              omega
                            · exact RowsOk_set_last rows lastRow _ hlast hpar.2 hcur
                          · exact hok _ (List.mem_cons_of_mem _ (List.mem_cons_of_mem _ hv))
                      | none =>
                          have hrows : rows = [] := by
                            cases rows with
                            | nil => rfl
                            | cons a b => simp [List.getLast?_concat] at hlast
                          subst hrows
                          have h2 : st2 = .list (.mk (stp ++ [""])
                              [[.nested cur]] it) :: rest := by
                            simpa [runOp, hlast] using h.symm
                          subst h2
                          intro v hv
                          rcases List.mem_cons.mp hv with rfl | hv
                          · refine (NodeOk_list_iff _ _ _).mpr ⟨?_, ?_⟩
                            · rw [List.length_append]
                              have h1 := hpar.1
                              simp [rowsFirstLen] at h1 ⊢
                              omega
                            · simp [RowsOk, DynsOk, DynOk]
                              exact hcur
                          · exact hok _ (List.mem_cons_of_mem _ (List.mem_cons_of_mem _ hv))
              | nestedR r => simp [runOp] at h

/-- Running a sequence of admissible operations from a well-formed stack keeps
it well-formed. -/
theorem runOps_preserves (ops : List BOp) (st st2 : BStack)
    (hops : ∀ op ∈ ops, BOpOk op) (h : runOps ops st = some st2)
    (hok : ∀ v ∈ st, NodeOk v) : ∀ v ∈ st2, NodeOk v := by
  induction ops generalizing st with
  | nil =>
      have : st2 = st := by simpa [runOps] using h.symm
      subst this
      exact hok
  | cons op ops ih =>
      rw [runOps] at h
      cases hstep : runOp op st with
      | none => rw [hstep] at h; simp at h
      | some stMid =>
          rw [hstep] at h
          simp at h
          exact ih stMid (fun o ho => hops o (List.mem_cons_of_mem _ ho)) h
            (runOp_preserves op st stMid (hops op (List.mem_cons_self ..)) hstep hok)

theorem getLast?_cons_ne (x : NodeValue) (rest : List NodeValue) (h : rest ≠ []) :
    (x :: rest).getLast? = rest.getLast? := by
  cases rest with
  | nil => exact absurd rfl h
  | cons a b => exact List.getLast?_cons_cons ..

/-- The bottom of the builder stack (the root accumulator) is always an items
node. -/
theorem runOp_lastItems (op : BOp) (st st2 : BStack)
    (h : runOp op st = some st2) (hl : ∃ n, st.getLast? = some (.items n)) :
    ∃ n, st2.getLast? = some (.items n) := by
  cases st with
  | nil =>
      obtain ⟨n, hn⟩ := hl
      simp at hn
  | cons cur rest =>
      cases hrest : rest with
      | cons p rest2 =>
          subst hrest
          obtain ⟨n, hn⟩ := hl
          simp only [List.getLast?_cons_cons] at hn
          -- every successful step leaves the tail `p :: rest2` (or a suffix of
          -- it containing the bottom) in place; only a pop at depth two
          -- rewrites the bottom node, keeping it an items node
          cases op with
          | pushStatic s =>
              cases cur with
              | items m =>
                  have h2 : st2 = .items (m.push_static s) :: p :: rest2 := by
                    simpa [runOp] using h.symm
                  subst h2
                  exact ⟨n, by simpa only [List.getLast?_cons_cons] using hn⟩
              | list m =>
                  have h2 : st2 = .list (m.push_static s) :: p :: rest2 := by
                    simpa [runOp] using h.symm
                  subst h2
                  exact ⟨n, by simpa only [List.getLast?_cons_cons] using hn⟩
              | nestedR r => simp [runOp] at h
          | pushDynamic s =>
              cases cur with
              | items m =>
                  have h2 : st2 = .items (m.push_dynamic s) :: p :: rest2 := by
                    simpa [runOp] using h.symm
                  subst h2
                  exact ⟨n, by simpa only [List.getLast?_cons_cons] using hn⟩
              | list m =>
                  cases hpd : m.push_dynamic s with
                  | none => simp [runOp, hpd] at h
                  | some m2 =>
                      have h2 : st2 = .list m2 :: p :: rest2 := by
                        simpa [runOp, hpd] using h.symm
                      subst h2
                      exact ⟨n, by simpa only [List.getLast?_cons_cons] using hn⟩
              | nestedR r => simp [runOp] at h
          | pushNested r =>
              cases cur with
              | items m =>
                  cases m with
                  | mk stt dy ts =>
                      have h2 : st2 = .items (.mk (stt ++ [""])
                          (dy ++ [.nested (.nestedR r)]) ts) :: p :: rest2 := by
                        simpa [runOp] using h.symm
                      subst h2
                      exact ⟨n, by simpa only [List.getLast?_cons_cons] using hn⟩
              | list m => simp [runOp] at h
              | nestedR r2 => simp [runOp] at h
          | pushIfFrame =>
              cases cur with
              | items m =>
                  have h2 : st2 = .items (.mk [] [] []) :: .items m :: p :: rest2 := by
                    simpa [runOp, pushDynamicNode] using h.symm
                  subst h2
                  exact ⟨n, by simpa only [List.getLast?_cons_cons] using hn⟩
              | list m =>
                  have h2 : st2 = .items (.mk [] [] []) :: .list m :: p :: rest2 := by
                    simpa [runOp, pushDynamicNode] using h.symm
                  subst h2
                  exact ⟨n, by simpa only [List.getLast?_cons_cons] using hn⟩
              | nestedR r => simp [runOp, pushDynamicNode] at h
          | pushForFrame =>
              cases cur with
              | items m =>
                  have h2 : st2 = .list (.mk [] [] none) :: .items m :: p :: rest2 := by
                    simpa [runOp, pushDynamicNode] using h.symm
                  subst h2
                  exact ⟨n, by simpa only [List.getLast?_cons_cons] using hn⟩
              | list m =>
                  have h2 : st2 = .list (.mk [] [] none) :: .list m :: p :: rest2 := by
                    simpa [runOp, pushDynamicNode] using h.symm
                  subst h2
                  exact ⟨n, by simpa only [List.getLast?_cons_cons] using hn⟩
              | nestedR r => simp [runOp, pushDynamicNode] at h
          | pushForItem =>
              cases cur with
              | items m => simp [runOp] at h
              | list m =>
                  cases m with
                  | mk stt rows it =>
                      have hgen : ∀ k : Nat,
                          st2 = .list (.mk stt (rows ++ [[]]) (some k)) :: p :: rest2 →
                          ∃ m, st2.getLast? = some (NodeValue.items m) := by
                        intro k h2
                        subst h2
                        exact ⟨n, by simpa only [List.getLast?_cons_cons] using hn⟩
                      cases it with
                      | none => exact hgen 0 (by simpa [runOp] using h.symm)
                      | some k => exact hgen (k + 1) (by simpa [runOp] using h.symm)
              | nestedR r => simp [runOp] at h
          | popForItem =>
              have h2 : st2 = cur :: p :: rest2 := by simpa [runOp] using h.symm
              subst h2
              exact ⟨n, by simpa only [List.getLast?_cons_cons] using hn⟩
          | popFrame =>
              cases rest2 with
              | nil =>
                  -- the parent `p` is the bottom items node; merging keeps it items
                  have hp : p = NodeValue.items n := by simpa using hn
                  subst hp
                  cases n with
                  | mk stp dyp tsp =>
                      have h2 : st2 = [.items (.mk (stp ++ [""])
                          (dyp ++ [.nested cur]) tsp)] := by
                        simpa [runOp] using h.symm
                      subst h2
                      exact ⟨_, rfl⟩
              | cons q rest3 =>
                  cases p with
                  | items m =>
                      cases m with
                      | mk stp dyp tsp =>
                          have h2 : st2 = .items (.mk (stp ++ [""])
                              (dyp ++ [.nested cur]) tsp) :: q :: rest3 := by
                            simpa [runOp] using h.symm
                          subst h2
                          exact ⟨n, by simpa only [List.getLast?_cons_cons] using hn⟩
                  | list m =>
                      cases m with
                      | mk stp rows it =>
                          cases hlast : rows.getLast? with
                          | some lastRow =>
                              have h2 : st2 = .list (.mk stp
                                  (rows.dropLast ++ [lastRow ++ [.nested cur]]) it)
                                  :: q :: rest3 := by
                                simpa [runOp, hlast] using h.symm
                              subst h2
                              exact ⟨n, by simpa only [List.getLast?_cons_cons] using hn⟩
                          | none =>
                              have h2 : st2 = .list (.mk (stp ++ [""])
                                  [[.nested cur]] it) :: q :: rest3 := by
                                simpa [runOp, hlast] using h.symm
                              subst h2
                              exact ⟨n, by simpa only [List.getLast?_cons_cons] using hn⟩
                  | nestedR r => simp [runOp] at h
      | nil =>
          subst hrest
          obtain ⟨n, hn⟩ := hl
          have hcur : cur = NodeValue.items n := by simpa using hn
          subst hcur
          cases op with
          | pushStatic s =>
              have h2 : st2 = [.items (n.push_static s)] := by
                simpa [runOp] using h.symm
              subst h2
              exact ⟨_, rfl⟩
          | pushDynamic s =>
              have h2 : st2 = [.items (n.push_dynamic s)] := by
                simpa [runOp] using h.symm
              subst h2
              exact ⟨_, rfl⟩
          | pushNested r =>
              cases n with
              | mk stt dy ts =>
                  have h2 : st2 = [.items (.mk (stt ++ [""])
                      (dy ++ [.nested (.nestedR r)]) ts)] := by
                    simpa [runOp] using h.symm
                  subst h2
                  exact ⟨_, rfl⟩
          | pushIfFrame =>
              have h2 : st2 = [.items (.mk [] [] []), .items n] := by
                simpa [runOp, pushDynamicNode] using h.symm
              subst h2
              exact ⟨n, by simp⟩
          | pushForFrame =>
              have h2 : st2 = [.list (.mk [] [] none), .items n] := by
                simpa [runOp, pushDynamicNode] using h.symm
              subst h2
              exact ⟨n, by simp⟩
          | pushForItem => simp [runOp] at h
          | popForItem =>
              have h2 : st2 = [.items n] := by simpa [runOp] using h.symm
              subst h2
              exact ⟨n, by simp⟩
          | popFrame => simp [runOp] at h

theorem runOps_lastItems (ops : List BOp) (st st2 : BStack)
    (h : runOps ops st = some st2) (hl : ∃ n, st.getLast? = some (.items n)) :
    ∃ n, st2.getLast? = some (.items n) := by
  induction ops generalizing st with
  | nil =>
      have : st2 = st := by simpa [runOps] using h.symm
      subst this
      exact hl
  | cons op ops ih =>
      rw [runOps] at h
      cases hstep : runOp op st with
      | none => rw [hstep] at h; simp at h
      | some stMid =>
          rw [hstep] at h
          simp at h
          exact ih stMid h (runOp_lastItems op st stMid hstep hl)

theorem insert_empty_strings_exact (st : List String) (n : Nat)
    (h : st.length = n + 1) : insert_empty_strings st n = st := by
  unfold insert_empty_strings
  split
  · simp [h]
  · rfl

theorem buildListDyns_length (ds : List DynamicNode) :
    ∀ (ts : List (List String)) (xs : List ListDyn) (ts2 : List (List String)),
      buildListDyns ds ts = some (xs, ts2) → xs.length = ds.length := by
  induction ds with
  | nil =>
      intro ts xs ts2 h
      rw [buildListDyns] at h
      simp at h
      obtain ⟨h1, h2⟩ := h
      subst h1
      rfl
  | cons d rest ih =>
      intro ts xs ts2 h
      rw [buildListDyns] at h
      cases h1 : buildListDyn d ts with
      | none => rw [h1] at h; simp at h
      | some x =>
          rw [h1] at h
          simp at h
          cases h2 : buildListDyns rest x.2 with
          | none => rw [h2] at h; simp at h
          | some ys =>
              rw [h2] at h
              simp at h
              rw [← h.1]
              simp [ih x.2 ys.1 ys.2 h2]

theorem buildRows_shape (rows : List (List DynamicNode)) :
    ∀ (ts : List (List String)) (rows2 : List (List ListDyn))
      (ts2 : List (List String)),
      buildRows rows ts = some (rows2, ts2) →
      rows2.length = rows.length ∧ rowsFirstLenT rows2 = rowsFirstLen rows := by
  induction rows with
  | nil =>
      intro ts rows2 ts2 h
      rw [buildRows] at h
      simp at h
      obtain ⟨h1, h2⟩ := h
      subst h1
      exact ⟨rfl, rfl⟩
  | cons row rest ih =>
      intro ts rows2 ts2 h
      rw [buildRows] at h
      cases h1 : buildListDyns row ts with
      | none => rw [h1] at h; simp at h
      | some r =>
          rw [h1] at h
          simp at h
          cases h2 : buildRows rest r.2 with
          | none => rw [h2] at h; simp at h
          | some rs =>
              rw [h2] at h
              simp at h
              rw [← h.1]
              constructor
              · simp [(ih r.2 rs.1 rs.2 h2).1]
              · simp [rowsFirstLenT, rowsFirstLen,
                  buildListDyns_length row ts r.1 r.2 h1]

theorem ListNode_build_shape (st : List String) (rows : List (List DynamicNode))
    (it : Option Nat) (r : RenderedT) (h : ListNode.build (.mk st rows it) = some r) :
    ∃ rows2 ts2, r = .mk st (.list rows2) ts2 ∧
      rowsFirstLenT rows2 = rowsFirstLen rows := by
  rw [ListNode.build] at h
  cases h1 : buildRows rows [] with
  | none => rw [h1] at h; simp at h
  | some res =>
      rw [h1] at h
      simp at h
      exact ⟨res.1, res.2, h.symm, (buildRows_shape rows [] res.1 res.2 h1).2⟩

theorem buildItemsDyn_nested_items_eq (v : NodeValue) (stN : List String)
    (dsN : List ItemDyn) (tsN : List (List String))
    (hb : v.build = some (.mk stN (.items dsN) tsN)) :
    buildItemsDyn (.nested v) =
      (if stN.isEmpty && dsN.isEmpty then some (.str "")
       else some (.nested (.mk (insert_empty_strings stN dsN.length)
         (.items dsN) tsN))) := by
  rw [buildItemsDyn, hb]
  rfl

theorem buildItemsDyn_nested_list_eq (v : NodeValue) (stN : List String)
    (rowsN : List (List ListDyn)) (tsN : List (List String))
    (hb : v.build = some (.mk stN (.list rowsN) tsN)) :
    buildItemsDyn (.nested v) =
      (if stN.isEmpty && (rowsFirstLenT rowsN == 0) then some (.str "")
       else some (.nested (.mk (insert_empty_strings stN (rowsFirstLenT rowsN))
         (.list rowsN) tsN))) := by
  rw [buildItemsDyn, hb]
  rfl

theorem buildItemsDyn_nested_none_eq (v : NodeValue) (hb : v.build = none) :
    buildItemsDyn (.nested v) = none := by
  rw [buildItemsDyn, hb]
  rfl

mutual

/-- A built items node either is the empty root or satisfies the invariant. -/
def ItemsNode_build_ok (st : List String) (dy : List DynamicNode)
    (ts : List (List String)) (r : RenderedT)
    (hle : st.length ≤ dy.length + 1) (hok : DynsOk dy)
    (h : ItemsNode.build (.mk st dy ts) = some r) :
    (st = [] ∧ dy = [] ∧ r = .mk [] (.items []) ts) ∨ treeOk r = true := by
  rw [ItemsNode.build] at h
  cases hds : buildItemsDyns dy with
  | none => rw [hds] at h; simp at h
  | some xs =>
      rw [hds] at h
      simp at h
      obtain ⟨hxok, hlen⟩ := buildItemsDyns_ok dy xs hok hds
      rw [← h]
      by_cases hdy : dy = []
      · subst hdy
        have hxs : xs = [] := List.length_eq_zero.mp (by simpa using hlen)
        subst hxs
        by_cases hst : st = []
        · subst hst
          left
          exact ⟨rfl, rfl, by simp [insert_empty_strings]⟩
        · right
          have h1 : st.length = 1 := by
            have := List.length_pos.mpr hst
            simpa using Nat.le_antisymm (by simpa using hle) this
          have hins : insert_empty_strings st ([] : List ItemDyn).length = st :=
            insert_empty_strings_exact st _ (by simpa using h1)
          rw [hins]
          simp [treeOk, itemsTreeOk, h1]
      · right
        have hpos : 0 < xs.length := by
          rw [hlen]
          exact List.length_pos.mpr hdy
        have := insert_empty_strings_length st xs.length (by omega)
        simp [treeOk, hxok]
        rw [this]
        simp [hpos, Nat.pos_iff_ne_zero.mp hpos]
termination_by (sizeOf dy, 1)

/-- Dynamics built by `build_items` all satisfy the invariant. -/
def buildItemsDyns_ok (dy : List DynamicNode) (xs : List ItemDyn)
    (hok : DynsOk dy) (h : buildItemsDyns dy = some xs) :
    itemsTreeOk xs = true ∧ xs.length = dy.length := by
  cases dy with
  | nil =>
      rw [buildItemsDyns] at h
      simp at h
      subst h
      exact ⟨rfl, rfl⟩
  | cons d rest =>
      rw [buildItemsDyns] at h
      cases h1 : buildItemsDyn d with
      | none => rw [h1] at h; simp at h
      | some x =>
          rw [h1] at h
          simp at h
          cases h2 : buildItemsDyns rest with
          | none => rw [h2] at h; simp at h
          | some ys =>
              rw [h2] at h
              simp at h
              obtain ⟨hys, hyslen⟩ := buildItemsDyns_ok rest ys hok.2 h2
              have hx := buildItemsDyn_ok d x hok.1 h1
              rw [← h]
              constructor
              · cases x with
                | str s => simpa [itemsTreeOk] using hys
                | nested r2 =>
                    have : treeOk r2 = true := by simpa [itemsTreeOk] using hx
                    simp [itemsTreeOk, this, hys]
              · simp [hyslen]
termination_by (sizeOf dy, 0)

/-- One dynamic built by `build_items` satisfies the invariant. -/
def buildItemsDyn_ok (d : DynamicNode) (x : ItemDyn)
    (hok : DynOk d) (h : buildItemsDyn d = some x) :
    itemsTreeOk [x] = true := by
  cases d with
  | str s =>
      rw [buildItemsDyn] at h
      simp at h
      simp [← h, itemsTreeOk]
  | nested v =>
      cases hb : v.build with
      | none => rw [buildItemsDyn_nested_none_eq v hb] at h; simp at h
      | some nested =>
          -- the shared tail of `build_items`: collapse or pad, depending on
          -- the shape of the built child
          have tailItems : ∀ (stN : List String) (dsN : List ItemDyn)
              (tsN : List (List String)),
              nested = .mk stN (.items dsN) tsN →
              stN.length = dsN.length + 1 → itemsTreeOk dsN = true →
              itemsTreeOk [x] = true := by
            intro stN dsN tsN hsh hlen2 hdok
            subst hsh
            rw [buildItemsDyn_nested_items_eq v stN dsN tsN hb] at h
            have hstN : stN.isEmpty = false := by
              cases stN with
              | nil => simp at hlen2
              | cons a b => rfl
            rw [insert_empty_strings_exact stN dsN.length hlen2] at h
            simp [hstN] at h
            simp [← h, itemsTreeOk, treeOk, hlen2, hdok]
          have tailList : ∀ (stN : List String) (rowsN : List (List ListDyn))
              (tsN : List (List String)),
              nested = .mk stN (.list rowsN) tsN →
              stN.length = rowsFirstLenT rowsN + 1 →
              itemsTreeOk [x] = true := by
            intro stN rowsN tsN hsh hlen2
            subst hsh
            rw [buildItemsDyn_nested_list_eq v stN rowsN tsN hb] at h
            have hstN : stN.isEmpty = false := by
              cases stN with
              | nil => simp at hlen2
              | cons a b => rfl
            rw [insert_empty_strings_exact stN _ hlen2] at h
            simp [hstN] at h
            simp [← h, itemsTreeOk, treeOk, hlen2]
          cases v with
          | items m =>
              cases m with
              | mk st2 dy2 ts2 =>
                  have hnode : st2.length ≤ dy2.length + 1 ∧ DynsOk dy2 := by
                    simpa [DynOk, NodeOk] using hok
                  have hb2 : ItemsNode.build (.mk st2 dy2 ts2) = some nested := by
                    simpa [NodeValue.build] using hb
                  rcases ItemsNode_build_ok st2 dy2 ts2 nested hnode.1 hnode.2 hb2 with
                    hempty | htree
                  · rw [hempty.2.2] at hb
                    rw [buildItemsDyn_nested_items_eq _ [] [] ts2 hb] at h
                    simp at h
                    simp [← h, itemsTreeOk]
                  · cases nested with
                    | mk stN dynN tsN =>
                        cases dynN with
                        | items dsN =>
                            have htree2 : stN.length = dsN.length + 1 ∧
                                itemsTreeOk dsN = true := by
                              simp [treeOk] at htree
                              exact ⟨htree.1, htree.2⟩
                            exact tailItems stN dsN tsN rfl htree2.1 htree2.2
                        | list rowsN =>
                            have htree2 : stN.length = rowsFirstLenT rowsN + 1 := by
                              simpa [treeOk] using htree
                            exact tailList stN rowsN tsN rfl htree2
          | list m =>
              cases m with
              | mk st2 rows2 it2 =>
                  have hnode : st2.length ≤ rowsFirstLen rows2 + 1 := by
                    have h2 : st2.length ≤ rowsFirstLen rows2 + 1 ∧ RowsOk rows2 := by
                      simpa [DynOk, NodeOk] using hok
                    exact h2.1
                  have hb2 : ListNode.build (.mk st2 rows2 it2) = some nested := by
                    simpa [NodeValue.build] using hb
                  obtain ⟨rows3, ts3, hshape, hfl⟩ :=
                    ListNode_build_shape st2 rows2 it2 nested hb2
                  subst hshape
                  rw [buildItemsDyn_nested_list_eq _ st2 rows3 ts3 hb] at h
                  rw [hfl] at h
                  by_cases hcol : (st2.isEmpty && (rowsFirstLen rows2 == 0)) = true
                  · rw [if_pos hcol] at h
                    simp at h
                    simp [← h, itemsTreeOk]
                  · rw [if_neg hcol] at h
                    have hlen := insert_empty_strings_length st2 (rowsFirstLen rows2) hnode
                    by_cases hz : rowsFirstLen rows2 = 0
                    · have hne : st2 ≠ [] := by
                        intro h0
                        apply hcol
                        simp [h0, hz]
                      have h1 : st2.length = 1 := by
                        have := List.length_pos.mpr hne
                        omega
                      rw [insert_empty_strings_exact st2 _ (by omega)] at h
                      simp at h
                      simp [← h, itemsTreeOk, treeOk, hfl, h1, hz]
                    · simp at h
                      simp [← h, itemsTreeOk, treeOk, hfl]
                      rw [hlen]
                      simp [Nat.pos_of_ne_zero hz]
          | nestedR rr =>
              have hpush : pushOk rr = true := by simpa [DynOk, NodeOk] using hok
              have hrr : rr = nested := by simpa [NodeValue.build] using hb
              subst hrr
              cases rr with
              | mk stN dynN tsN =>
                  cases dynN with
                  | items dsN =>
                      rw [buildItemsDyn_nested_items_eq _ stN dsN tsN hb] at h
                      by_cases hcol : (stN.isEmpty && dsN.isEmpty) = true
                      · rw [if_pos hcol] at h
                        simp at h
                        simp [← h, itemsTreeOk]
                      · rw [if_neg hcol] at h
                        have htree : treeOk (RenderedT.mk stN (.items dsN) tsN) = true := by
                          rcases Bool.or_eq_true _ _ |>.mp hpush with ht | hc
                          · exact ht
                          · exact absurd (by simpa [collapsible] using hc)
                              (by simpa using hcol)
                        have htree2 : stN.length = dsN.length + 1 ∧
                            itemsTreeOk dsN = true := by
                          simp [treeOk] at htree
                          exact ⟨htree.1, htree.2⟩
                        rw [insert_empty_strings_exact stN dsN.length htree2.1] at h
                        simp at h
                        simp [← h, itemsTreeOk, treeOk, htree2.1, htree2.2]
                  | list rowsN =>
                      rw [buildItemsDyn_nested_list_eq _ stN rowsN tsN hb] at h
                      by_cases hcol : (stN.isEmpty && (rowsFirstLenT rowsN == 0)) = true
                      · rw [if_pos hcol] at h
                        simp at h
                        simp [← h, itemsTreeOk]
                      · rw [if_neg hcol] at h
                        have htree : treeOk (RenderedT.mk stN (.list rowsN) tsN) = true := by
                          rcases Bool.or_eq_true _ _ |>.mp hpush with ht | hc
                          · exact ht
                          · exact absurd (by simpa [collapsible] using hc)
                              (by simpa using hcol)
                        have htree2 : stN.length = rowsFirstLenT rowsN + 1 := by
                          simpa [treeOk] using htree
                        rw [insert_empty_strings_exact stN _ htree2] at h
                        simp at h
                        simp [← h, itemsTreeOk, treeOk, htree2]
termination_by (sizeOf d, 2)

end

/-- C5 counterexample: the empty build (no operations at all) produces the
tree with `statics = []` and zero dynamics, violating
`len(statics) == len(dynamics) + 1` at the root. -/
theorem empty_build_violates_length_invariant :
    runOps [] initStack = some initStack ∧
    buildStack initStack = some (.mk [] (.items []) []) ∧
    (RenderedT.mk [] (.items []) []).statics.length = 0 ∧
    treeOk (.mk [] (.items []) []) = false := by
  exact ⟨rfl, rfl, rfl, rfl⟩

/-- C5 (amended): for every builder-operation sequence that runs and builds
without panicking, closes every frame it opened (the final builder stack is
just the root), passes only invariant-satisfying (or collapsing) trees to
`push_nested`, and leaves a non-empty root, every node of the built tree
satisfies `len(statics) == len(dynamics) + 1` — list nodes with respect to
their first row's slot count.  The empty build violates the invariant at the
root (see `empty_build_violates_length_invariant`). -/
theorem builder_length_invariant (ops : List BOp) (stackF : BStack)
    (tree : RenderedT)
    (hops : ∀ op ∈ ops, BOpOk op)
    (hrun : runOps ops initStack = some stackF)
    (hclosed : stackF.length = 1)
    (hbuild : buildStack stackF = some tree)
    (hne : ¬ (tree.statics = [] ∧ tree.dynamics = .items [])) :
    treeOk tree = true := by
  have hok := runOps_preserves ops initStack stackF hops hrun (by
    intro v hv
    simp [initStack] at hv
    subst hv
    exact (NodeOk_items_iff _ _ _).mpr ⟨by simp, trivial⟩)
  have hlast := runOps_lastItems ops initStack stackF hrun
    ⟨.mk [] [] [], by simp [initStack]⟩
  obtain ⟨n, hn⟩ := hlast
  cases stackF with
  | nil => simp at hclosed
  | cons v rest =>
      cases rest with
      | cons w rest2 => simp at hclosed
      | nil =>
          have hv : v = .items n := by simpa using hn
          subst hv
          cases n with
          | mk st dy ts =>
              have hnode := (NodeOk_items_iff st dy ts).mp (hok _ (by simp))
              have hb : ItemsNode.build (.mk st dy ts) = some tree := by
                simpa [buildStack, NodeValue.build] using hbuild
              rcases ItemsNode_build_ok st dy ts tree hnode.1 hnode.2 hb with
                hempty | hok2
              · exact absurd (by
                  rw [hempty.2.2]
                  exact ⟨rfl, rfl⟩) hne
              · exact hok2

/-- Witness for the hypotheses of `builder_length_invariant`. -/
theorem builder_length_invariant_witness :
    runOps [.pushStatic "a", .pushDynamic "b"] initStack =
      some [.items (.mk ["a"] [.str "b"] [])] ∧
    buildStack [.items (.mk ["a"] [.str "b"] [])] =
      some (.mk ["a", ""] (.items [.str "b"]) []) ∧
    treeOk (.mk ["a", ""] (.items [.str "b"]) []) = true := by
  refine ⟨rfl, rfl, ?_⟩
  exact builder_length_invariant [.pushStatic "a", .pushDynamic "b"]
    [.items (.mk ["a"] [.str "b"] [])] (.mk ["a", ""] (.items [.str "b"]) [])
    (by
      intro op hop
      simp at hop
      rcases hop with rfl | rfl <;> trivial)
    rfl rfl rfl
    (by
      intro hcontra
      simp [RenderedT.statics] at hcontra)

/-! ## Session event dispatch (`src/event_handler.rs`, `src/handler.rs`) -/

/-- `Event` of `src/socket.rs`. -/
structure Event where
  name : String
  ty : String
  value : JValue

/-- The `EventList::handle_event` dispatch generated by `impl_event_list!`:
walk the registered `(NAME, handler)` pairs in order; the first name match
deserializes the payload (failure aborts with `Err`) and runs the handler
mutating the live-view state; no match yields `Ok(false)`.  A handler is
modelled as `V → JValue → String → Option V` (`None` = deserialize failure). -/
def handleEventList {V : Type} :
    List (String × (V → JValue → String → Option V)) → V → Event →
    Except Unit (Bool × V)
  | [], v, _ => .ok (false, v)
  | (n, f) :: rest, v, e =>
      if n = e.name then
        match f v e.value e.ty with
        | some v2 => .ok (true, v2)
        | none => .error ()
      else handleEventList rest v e

/-- `EventHandlerError` of `src/event_handler.rs` / `src/handler.rs`. -/
inductive EventHandlerError where
  | deserializeEvent
  | serializeEvent
  | managerError (s : String)
  | notMounted
  | socketError (s : String)
  | unknownEvent

/-- The `HandleEvent` arm of the `event_handler` process loop
(src/event_handler.rs lines 122-153).  `state.handle_anonymous_event` is not
part of the sources; it is passed in as `anon : S → V → String → Bool × S × V`
(handled flag plus possibly mutated manager state and live view).  The
manager's `handle_event` mutates its state and returns `Result<Option<Value>>`.
Returns the reply sent back to the socket process and the new session state. -/
def handleEventMsg {V S : Type}
    (anon : S → V → String → Bool × S × V)
    (handlers : List (String × (V → JValue → String → Option V)))
    (managerHandleEvent : Event → S → V → Except String (Option JValue × S))
    (sess : Option (V × S)) (e : Event) :
    Except EventHandlerError (Option JValue) × Option (V × S) :=
  match sess with
  | none => (.error .notMounted, none)
  | some (lv, st) =>
      match anon st lv e.name with
      | (anonHandled, st1, lv1) =>
        let handled : Except Unit (Bool × V) :=
          if !anonHandled then handleEventList handlers lv1 e
          else .ok (true, lv1)
        match handled with
        | .error _ => (.error .deserializeEvent, some (lv1, st1))
        | .ok (false, lv2) => (.error .unknownEvent, some (lv2, st1))
        | .ok (true, lv2) =>
            match managerHandleEvent e st1 lv2 with
            | .ok (reply, st2) => (.ok reply, some (lv2, st2))
            | .error msg => (.error (.managerError msg), some (lv2, st1))

/-- The `ProtocolEvent::Event` arm of `handle_message`
(src/handler.rs lines 327-349): `Ok(Some(reply))` sends
`reply_ok({"diff": reply})`, `Ok(None)` sends `reply_ok({})`, and an `Err` is
only logged (`error!("{err}")`) — no reply is sent; in every case the message
loop continues (`true`).  Returns (continue?, replies sent, session state). -/
def handle_message_event {V S : Type}
    (anon : S → V → String → Bool × S × V)
    (handlers : List (String × (V → JValue → String → Option V)))
    (managerHandleEvent : Event → S → V → Except String (Option JValue × S))
    (sess : Option (V × S)) (e : Event) :
    Bool × List JValue × Option (V × S) :=
  match handleEventMsg anon handlers managerHandleEvent sess e with
  | (.ok (some reply), sess2) => (true, [JValue.obj [("diff", reply)]], sess2)
  | (.ok none, sess2) => (true, [JValue.obj []], sess2)
  | (.error _, sess2) => (true, [], sess2)

theorem handleEventList_no_match {V : Type}
    (handlers : List (String × (V → JValue → String → Option V))) (v : V)
    (e : Event) (hname : ∀ p ∈ handlers, p.1 ≠ e.name) :
    handleEventList handlers v e = .ok (false, v) := by
  induction handlers with
  | nil => rfl
  | cons p rest ih =>
      obtain ⟨n, f⟩ := p
      have hne : n ≠ e.name := hname (n, f) (by simp)
      rw [handleEventList, if_neg hne]
      exact ih (fun q hq => hname q (List.mem_cons_of_mem _ hq))

/-- C9 counterexample: a joined session receiving an event whose name matches
no registered handler sends *no* reply at all — the `Err(UnknownEvent)` coming
back from the event-handler process is only logged by `handle_message` — so
the claimed non-fatal "unknown event" reply to the client never happens. -/
theorem unknown_event_sends_no_reply :
    handle_message_event (V := Nat) (S := Nat)
      (fun st lv _ => (false, st, lv))
      [("incr", fun v _ _ => some (v + 1))]
      (fun _ st _ => .ok (none, st))
      (some (0, 7)) ⟨"bogus", "click", .null⟩ =
      (true, [], some (0, 7)) := rfl

/-- C9 (amended): while joined, an event whose name matches no registered
handler (and is not claimed by the anonymous-event hook) makes the
event-handler process answer `Err(UnknownEvent)`; `handle_message` merely logs
it and sends no reply, the message loop continues, and both the application
state and the stored last render tree (the manager state) are unchanged. -/
theorem unknown_event_keeps_session {V S : Type}
    (anon : S → V → String → Bool × S × V)
    (handlers : List (String × (V → JValue → String → Option V)))
    (managerHandleEvent : Event → S → V → Except String (Option JValue × S))
    (lv : V) (st : S) (e : Event)
    (hanon : anon st lv e.name = (false, st, lv))
    (hname : ∀ p ∈ handlers, p.1 ≠ e.name) :
    handleEventMsg anon handlers managerHandleEvent (some (lv, st)) e =
      (.error .unknownEvent, some (lv, st)) ∧
    handle_message_event anon handlers managerHandleEvent (some (lv, st)) e =
      (true, [], some (lv, st)) := by
  have hmsg : handleEventMsg anon handlers managerHandleEvent (some (lv, st)) e =
      (.error .unknownEvent, some (lv, st)) := by
    rw [handleEventMsg, hanon]
    simp [handleEventList_no_match handlers lv e hname]
  refine ⟨hmsg, ?_⟩
  rw [handle_message_event, hmsg]

/-- Witness for the hypotheses of `unknown_event_keeps_session`. -/
theorem unknown_event_keeps_session_witness :
    handle_message_event (V := Nat) (S := Nat)
      (fun st lv _ => (false, st, lv))
      [("incr", fun v _ _ => some (v + 1))]
      (fun _ st _ => .ok (none, st))
      (some (3, 4)) ⟨"nope", "click", .null⟩ =
      (true, [], some (3, 4)) := by
  exact (unknown_event_keeps_session
    (fun st lv _ => (false, st, lv))
    [("incr", fun v _ _ => some (v + 1))]
    (fun _ st _ => .ok (none, st))
    3 4 ⟨"nope", "click", .null⟩ rfl
    (by
      intro p hp
      simp at hp
      subst hp
      simp)).2

end LiveViewVerify
